import Mathlib

/-!
# Verification of the scheduling core of the `sim` repository

This file gives a shallow embedding, in Lean, of the scheduling subsystem of
the repository:

* `SparseSet` — the dense/sparse indexed storage primitive
  (`src/collections.rs`);
* the conflict graph, its coloring pass, consistency check and partition into
  conflict-free groups (`src/conflictgraph.rs`);
* the query-filter precedence and pruning logic (`src/query.rs`);
* the conflict predicate on systems and the schedule resolution
  (`src/systems.rs`, `src/world.rs`).

Modelling conventions:

* `usize` values are modelled as `Nat`.  Allocation is idealized (always
  succeeds) except where a claim is specifically about allocation behaviour,
  in which case a machine-accurate variant with mod-`2^64` arithmetic and an
  allocation oracle is used (`reserveMach` below).
* Sentinel constants (`EMPTY_KEY`, `UNCOLORED`, both `usize::MAX` in the
  source) are kept as the concrete value `2^64 - 1`.
* Interior mutability (`Cell`/`RefCell`) is translated to explicit state
  passing: edge sets and colors of graph nodes are carried as functions or
  finite sets beside the node list.
* `HashSet`/`HashMap` iteration order is not deterministic in the source;
  edge sets are therefore modelled as `Finset`s, and the bucket-collection
  order of the final clique partition is an explicit parameter (an arbitrary
  duplicate-free enumeration of the used colors).
-/

namespace Sim

/-! ## SparseSet (src/collections.rs) -/

/-- `const EMPTY_KEY: usize = std::usize::MAX;` -/
def EMPTY_KEY : Nat := 2 ^ 64 - 1

/-- The three parallel arrays of `SparseSet<T>`.  The phantom key type
parameter of the source is dropped; keys are `Nat` (the source converts every
key through `usize`). -/
structure SparseSet (T : Type) where
  sparse : List Nat
  dense : List Nat
  data : List T
deriving DecidableEq, Repr

namespace SparseSet

variable {T : Type}

/-- `SparseSet::new` -/
def new (T : Type) : SparseSet T := ⟨[], [], []⟩

/-- `SparseSet::capacity` — returns `self.sparse.len()`. -/
def capacity (s : SparseSet T) : Nat := s.sparse.length

/-- `SparseSet::len` — returns `self.dense.len()`. -/
def len (s : SparseSet T) : Nat := s.dense.length

/-- `SparseSet::is_empty` -/
def is_empty (s : SparseSet T) : Bool := s.len == 0

/-- The successful path of `SparseSet::reserve`: `sparse.resize(additional +
capacity, EMPTY_KEY)` extends `sparse` by `additional` sentinel slots (the
`dense.reserve`/`data.reserve` calls change no observable state).  This is the
idealized-allocation version used by `insert_with`'s grow loop; the
machine-accurate version is `reserveMach` below. -/
def reserveOk (s : SparseSet T) (additional : Nat) : SparseSet T :=
  { s with sparse := s.sparse ++ List.replicate additional EMPTY_KEY }

/-- The `while key >= capacity { reserve(max(1, len)) }` loop at the top of
`SparseSet::insert_with`, written with explicit fuel (`key + 1` iterations
always suffice because every iteration grows the capacity by at least one;
`grow_lt` below proves the loop guard is indeed false on exit). -/
def growAux : Nat → SparseSet T → Nat → SparseSet T
  | 0, s, _ => s
  | fuel + 1, s, key =>
    if key < s.capacity then s
    else growAux fuel (s.reserveOk (max 1 s.len)) key

def grow (s : SparseSet T) (key : Nat) : SparseSet T :=
  growAux (key + 1) s key

/-- `SparseSet::get_idx`: bounds check on the capacity, then the round-trip
check `sparse[key] < len && dense[sparse[key]] == key`. -/
def get_idx (s : SparseSet T) (key : Nat) : Option Nat :=
  if key ≥ s.capacity then none
  else if s.sparse.getD key 0 < s.len then
    if s.dense.getD (s.sparse.getD key 0) 0 = key then some (s.sparse.getD key 0)
    else none
  else none

/-- `SparseSet::get` (the `Get` impl via `_private_get`): look up the dense
index, then read `data[idx]`. -/
def get (s : SparseSet T) (key : Nat) : Option T :=
  match s.get_idx key with
  | some idx => s.data[idx]?
  | none => none

/-- `SparseSet::contains` -/
def contains (s : SparseSet T) (key : Nat) : Bool :=
  (s.get_idx key).isSome

/-- `SparseSet::insert_with`.  Returns the replaced item (if the key was
live) together with the updated set.  The source first runs the grow loop on
`self` and then either overwrites in place (`get_mut` hit) or appends; the
grown set is written out explicitly here instead of rebinding `self`. -/
def overwriteAt (s : SparseSet T) (idx : Nat) (item : T) : SparseSet T :=
  { s with data := s.data.set idx item }

def appendFresh (s : SparseSet T) (key : Nat) (item : T) : SparseSet T :=
  { sparse := s.sparse.set key s.len
    dense := s.dense ++ [key]
    data := s.data ++ [item] }

def insert_with (s : SparseSet T) (key : Nat) (item : T) : Option T × SparseSet T :=
  match (s.grow key).get_idx key with
  | some idx => ((s.grow key).data[idx]?, (s.grow key).overwriteAt idx item)
  | none => (none, (s.grow key).appendFresh key item)

/-- `Vec::swap_remove`: replace the element at `idx` with the last element
and pop the last slot. -/
def swapRemove {α : Type} (l : List α) (idx : Nat) : List α :=
  match l.getLast? with
  | none => l
  | some last => (l.set idx last).dropLast

/-- The state produced by the live branch of `SparseSet::remove`: swap-remove
`dense`/`data` at `idx`, re-link the swapped key's sparse slot (`if self.len()
> 0`, i.e. the length after removal), then mark `key`'s slot EMPTY. -/
def removeAt (s : SparseSet T) (key idx : Nat) : SparseSet T :=
  { sparse :=
      (if 0 < (swapRemove s.dense idx).length
        then s.sparse.set (s.dense.getLast?.getD 0) idx
        else s.sparse).set key EMPTY_KEY
    dense := swapRemove s.dense idx
    data := swapRemove s.data idx }

/-- `SparseSet::remove` -/
def remove (s : SparseSet T) (key : Nat) : Option T × SparseSet T :=
  match s.get_idx key with
  | none => (none, s)
  | some idx => (s.data[idx]?, s.removeAt key idx)

/-- `SparseSet::next_key` -/
def next_key (s : SparseSet T) : Nat :=
  if s.is_empty then s.capacity
  else
    match s.sparse.findIdx? (fun v => v == EMPTY_KEY) with
    | some idx => idx
    | none => s.capacity

/-- `SparseSet::insert` — generates a key with `next_key` and delegates to
`insert_with` (the source panics if `insert_with` returns a previous item,
which cannot happen because `next_key` is never a live key on real-length
states). -/
def insert (s : SparseSet T) (item : T) : Nat × SparseSet T :=
  let key := s.next_key
  (key, (s.insert_with key item).2)

/-- `SparseSet::clear` — the source clears **only** `dense`. -/
def clear (s : SparseSet T) : SparseSet T :=
  { s with dense := [] }

/-- `SparseSet::kv_pairs` — the iterator yields `(dense[i], data[i])` until
either array runs out. -/
def kv_pairs (s : SparseSet T) : List (Nat × T) := s.dense.zip s.data

/-- The structural invariant of `SparseSet` (spec §3): the dense arrays are
parallel, never longer than `sparse`, and every dense slot round-trips
through `sparse`. -/
structure Inv (s : SparseSet T) : Prop where
  len_data : s.dense.length = s.data.length
  len_cap : s.dense.length ≤ s.sparse.length
  roundtrip : ∀ i, i < s.dense.length →
    s.dense.getD i 0 < s.sparse.length ∧ s.sparse.getD (s.dense.getD i 0) 0 = i

/-- The number of currently-live keys, observed through the public lookup
interface: the keys below the capacity for which `contains` holds (keys at or
above the capacity are never live). -/
def liveCount (s : SparseSet T) : Nat :=
  ((List.range s.capacity).filter (fun k => s.contains k)).length

end SparseSet

/-! ### Operation sequences on `SparseSet` (spec §8, first testable property) -/

/-- A single `insert_with`/`remove` call. -/
inductive SparseOp (T : Type) where
  | insertWithOp (key : Nat) (item : T)
  | removeOp (key : Nat)
deriving DecidableEq, Repr

open SparseSet in
def applySparseOp (s : SparseSet T) : SparseOp T → SparseSet T
  | .insertWithOp k v => (s.insert_with k v).2
  | .removeOp k => (s.remove k).2

/-- Run a sequence of operations on a `SparseSet` created empty. -/
def runSparseOps (ops : List (SparseOp T)) : SparseSet T :=
  ops.foldl applySparseOp (SparseSet.new T)

/-- The reference map the spec describes: the value most recently inserted
for a key, erased by a later remove of that key.  (This is the second
definition of a refinement claim: it follows the spec's words, and is
compared against the embedding of the code.) -/
def specStep (m : Nat → Option T) : SparseOp T → (Nat → Option T)
  | .insertWithOp k v => fun q => if q = k then some v else m q
  | .removeOp k => fun q => if q = k then none else m q

def specMapOf (ops : List (SparseOp T)) : Nat → Option T :=
  ops.foldl specStep (fun _ => none)

/-! ### Auto-key insertion and machine-accurate reserve -/

/-- What C6 claims `next_key` computes: the first sparse slot holding the
EMPTY sentinel if one exists, and otherwise one past the occupied range.
(Definition written from the claim's words, for comparison.) -/
def claimedNextKey (s : SparseSet T) : Nat :=
  match s.sparse.findIdx? (fun v => v == EMPTY_KEY) with
  | some i => i
  | none => s.capacity

/-- `isize::MAX` as `usize`. -/
def ISIZE_MAX : Nat := 2 ^ 63 - 1

/-- `usize` arithmetic is modulo `2^64`. -/
def USIZE_MOD : Nat := 2 ^ 64

/-- The error type of `SparseSet::reserve`. -/
inductive TryReserveError where
  | capacityOverflow
  | allocError
deriving DecidableEq, Repr

/-- `Vec::resize(n, EMPTY_KEY)`: truncate or pad with the sentinel. -/
def resizeTo (l : List Nat) (n : Nat) : List Nat :=
  if n ≤ l.length then l.take n
  else l ++ List.replicate (n - l.length) EMPTY_KEY

/-- `SparseSet::reserve` with machine-accurate arithmetic: `new_capacity =
additional + capacity` computed in `usize` wraps modulo `2^64` (a release
build; a debug build panics on the overflow, likewise never reaching the
`CapacityOverflow` return).  `allocOk` is the allocation oracle: `false`
models the `Vec::resize`/`Vec::reserve` calls panicking inside
`catch_unwind`, after which the source truncates `sparse` back to its old
length and shrinks `dense`/`data` — no observable change. -/
def SparseSet.reserveMach (s : SparseSet T) (additional : Nat) (allocOk : Bool) :
    Except TryReserveError Nat × SparseSet T :=
  if (additional + s.capacity) % USIZE_MOD < ISIZE_MAX then
    if allocOk then
      (Except.ok ((additional + s.capacity) % USIZE_MOD),
        { s with sparse := resizeTo s.sparse ((additional + s.capacity) % USIZE_MOD) })
    else
      (Except.error TryReserveError.allocError, s)
  else
    (Except.error TryReserveError.capacityOverflow, s)

/-! ## ConflictGraph (src/conflictgraph.rs)

The graph stores payload nodes in a `SparseSet` (`insert` only — the graph
is not a container).  `InnerNode`'s `RefCell<HashSet<usize>>` of edges and
`Cell<usize>` color are translated to explicit state: a `Finset Nat` of edge
targets per key (a `HashSet` has no deterministic iteration order, and the
coloring pass only uses its cardinality-style and membership-style
observations), and a total color map `Nat → Nat`. -/

/-- `const UNCOLORED: usize = std::usize::MAX;` -/
def UNCOLORED : Nat := 2 ^ 64 - 1

instance {ε α : Type} [DecidableEq ε] [DecidableEq α] : DecidableEq (Except ε α) :=
  fun x y =>
  match x, y with
  | .ok a, .ok b =>
    if h : a = b then .isTrue (by rw [h]) else .isFalse (fun hh => h (by injection hh))
  | .ok _, .error _ => .isFalse (fun hh => by injection hh)
  | .error _, .ok _ => .isFalse (fun hh => by injection hh)
  | .error e, .error f =>
    if h : e = f then .isTrue (by rw [h]) else .isFalse (fun hh => h (by injection hh))

/-- `ConflictGraphError` -/
inductive ConflictGraphError where
  | insertFailed
  | nodeDoesntExist
  | unresolvedConflict
  | uncoloredNode
deriving DecidableEq, Repr

/-- The node store of `ConflictGraph<N>`. -/
structure ConflictGraph (N : Type) where
  nodes : SparseSet N

/-- `ConflictGraph::new` -/
def ConflictGraph.new (N : Type) : ConflictGraph N := ⟨SparseSet.new N⟩

/-- `ConflictGraph::insert` — always returns `Ok(())` in the source; the
assigned key is `SparseSet::insert`'s. -/
def ConflictGraph.insertNode (g : ConflictGraph N) (n : N) : ConflictGraph N :=
  ⟨(g.nodes.insert n).2⟩

/-- A graph built by inserting the nodes of `ns` in order into a new graph. -/
def graphOfList (ns : List N) : ConflictGraph N :=
  ns.foldl ConflictGraph.insertNode (ConflictGraph.new N)

/-- The kv-pair view of the node store, which drives every pass. -/
def cliquesKvs (ns : List N) : List (Nat × N) :=
  (graphOfList ns).nodes.kv_pairs

/-- Keyed lookup in a kv list — `nodes.get(key)` for the insert-only stores
reachable here (`canon_contains_iff` below connects it to `SparseSet::get`). -/
def lookupNode (kvs : List (Nat × N)) (k : Nat) : Option N :=
  (kvs.find? (fun p => p.1 == k)).map Prod.snd

/-- `ConflictGraph::rebuild`, per node: after clearing, the edge set of the
node `(k, n)` is every other key whose node conflicts with `n` (the ordered
predicate `node.conflict_cmp(other)`). -/
def edgesOf (conflict : N → N → Bool) (kvs : List (Nat × N)) (k : Nat) (n : N) :
    Finset Nat :=
  ((kvs.filter (fun p => decide (p.1 ≠ k) && conflict n p.2)).map Prod.fst).toFinset

/-- The edge sets produced by `rebuild`, as a function of the key. -/
def edgesFn (conflict : N → N → Bool) (kvs : List (Nat × N)) (k : Nat) : Finset Nat :=
  match lookupNode kvs k with
  | some n => edgesOf conflict kvs k n
  | none => ∅

/-- The `Candidate` helper struct of `ConflictGraph::color`.
`forbidden_colors` is a `Vec` only read through `len()` and `contains()`, so
it is carried as a multiset. -/
structure Candidate where
  graph_key : Nat
  uncolored_adjacent : Nat
  forbidden_colors : Multiset Nat
deriving DecidableEq

/-- `Candidate::default()` -/
def defaultCandidate : Candidate := ⟨0, 0, 0⟩

/-- Building the test candidate for an uncolored node: walk its edges,
counting uncolored neighbours and recording the colors of colored ones. -/
def mkCandidate (colors : Nat → Nat) (k : Nat) (edges : Finset Nat) : Candidate :=
  { graph_key := k
    uncolored_adjacent := (edges.filter (fun e => colors e = UNCOLORED)).card
    forbidden_colors := (edges.val.filter (fun e => ¬ colors e = UNCOLORED)).map colors }

/-- The candidate-selection loop of one pass of `ConflictGraph::color`:
walk `kv_pairs`, skip colored nodes, and select (breaking out of the loop)
the first uncolored node that is the last uncolored one, or has no edges, or
beats the running candidate on colored-neighbour count, or ties it with more
uncolored neighbours.  Reaching the end keeps the running candidate. -/
def candLoop (colors : Nat → Nat) (edges : Nat → Finset Nat) (uncoloredCount : Nat) :
    List (Nat × N) → Candidate → Candidate
  | [], cand => cand
  | (k, _) :: rest, cand =>
    if colors k = UNCOLORED then
      let test := mkCandidate colors k (edges k)
      if uncoloredCount = 1 then test
      else if edges k = ∅ then test
      else if test.forbidden_colors.card > cand.forbidden_colors.card then test
      else if test.forbidden_colors.card = cand.forbidden_colors.card ∧
          test.uncolored_adjacent > cand.uncolored_adjacent then test
      else candLoop colors edges uncoloredCount rest cand
    else candLoop colors edges uncoloredCount rest cand

/-- The color-selection loop (`'outer: loop { for color in used_colors ...;
used_colors.push(used_colors.len()) }`): scan `used_colors = [0, …, m-1]`
for the first color outside `forbidden`, pushing a fresh color and
rescanning when every existing color is forbidden.  Written with fuel;
`chooseColor_eq` below proves the fuel is always sufficient. -/
def chooseColorAux (forbidden : Multiset Nat) : Nat → Nat → Option (Nat × Nat)
  | 0, _ => none
  | fuel + 1, m =>
    match (List.range m).find? (fun c => decide (c ∉ forbidden)) with
    | some c => some (c, m)
    | none => chooseColorAux forbidden fuel (m + 1)

def chooseColor (forbidden : Multiset Nat) (m : Nat) : Nat × Nat :=
  (chooseColorAux forbidden (forbidden.card + 2) m).getD (0, m)

/-- The smallest color value not in `forbidden` (computed by scanning
`[0, …, card]`, which must contain a fresh color by pigeonhole). -/
def leastFresh (forbidden : Multiset Nat) : Nat :=
  ((List.range (forbidden.card + 1)).find? (fun c => decide (c ∉ forbidden))).getD
    (forbidden.card + 1)

/-- The `while uncolored_count > 0` loop of `ConflictGraph::color`: each
pass selects a candidate, assigns it the chosen color (erroring with
`NodeDoesntExist` if its key is not in the store), and decrements the
uncolored count. -/
def colorPasses (kvs : List (Nat × N)) (edges : Nat → Finset Nat) :
    Nat → (Nat → Nat) → Nat → Except ConflictGraphError ((Nat → Nat) × Nat)
  | 0, colors, m => .ok (colors, m)
  | uc + 1, colors, m =>
    match lookupNode kvs (candLoop colors edges (uc + 1) kvs defaultCandidate).graph_key
      with
    | none => .error .nodeDoesntExist
    | some _ =>
      colorPasses kvs edges uc
        (fun k =>
          if k = (candLoop colors edges (uc + 1) kvs defaultCandidate).graph_key then
            (chooseColor
              (candLoop colors edges (uc + 1) kvs defaultCandidate).forbidden_colors
              m).1
          else colors k)
        (chooseColor
          (candLoop colors edges (uc + 1) kvs defaultCandidate).forbidden_colors m).2

/-- `ConflictGraph::color`: reset every color to UNCOLORED, set the
uncolored count to the node count, start with no used colors, and run the
passes. -/
def colorGraph (kvs : List (Nat × N)) (edges : Nat → Finset Nat) :
    Except ConflictGraphError ((Nat → Nat) × Nat) :=
  colorPasses kvs edges kvs.length (fun _ => UNCOLORED) 0

/-- One pair test of `ConflictGraph::check`. -/
def checkPairErr (conflict : N → N → Bool) (ci cj : Nat) (ni nj : N) :
    Option ConflictGraphError :=
  if ci = UNCOLORED then some .uncoloredNode
  else if cj = UNCOLORED then some .uncoloredNode
  else if conflict ni nj then
    (if ci = cj then some .unresolvedConflict else none)
  else none

/-- `ConflictGraph::check`: scan all ordered pairs of distinct nodes,
failing on an uncolored node or on two conflicting nodes sharing a color.
(The source indexes pairs by dense position; for the insert-only stores
reachable here the position and the key coincide.) -/
def checkGraph (conflict : N → N → Bool) (kvs : List (Nat × N)) (colors : Nat → Nat) :
    Except ConflictGraphError Unit :=
  match kvs.findSome? (fun p =>
      kvs.findSome? (fun q =>
        if p.1 ≠ q.1 then checkPairErr conflict (colors p.1) (colors q.1) p.2 q.2
        else none)) with
  | some e => .error e
  | none => .ok ()

/-- One bucket of the final partition: the nodes (in store order) whose
color is `c`. -/
def bucket (kvs : List (Nat × N)) (colors : Nat → Nat) (c : Nat) : List N :=
  (kvs.filter (fun p => colors p.1 = c)).map Prod.snd

/-- The `From<ConflictGraph<N>>` partition: one bucket per color, collected
in the iteration order `σ` of the intermediate `HashMap` (an arbitrary
duplicate-free enumeration of the used colors — `AdmissibleOrder`). -/
def partitionGroups (kvs : List (Nat × N)) (colors : Nat → Nat) (σ : List Nat) :
    List (List N) :=
  σ.map (bucket kvs colors)

/-- `σ` enumerates exactly the colors occurring in the store, without
duplicates — every iteration order of the `HashMap` of buckets does. -/
def AdmissibleOrder (kvs : List (Nat × N)) (colors : Nat → Nat) (σ : List Nat) : Prop :=
  σ.Nodup ∧ σ ⊆ kvs.map (fun p => colors p.1) ∧ kvs.map (fun p => colors p.1) ⊆ σ

/-- One concrete admissible order (first-occurrence order), used to obtain
executable witnesses. -/
def canonicalOrder (kvs : List (Nat × N)) (colors : Nat → Nat) : List Nat :=
  (kvs.map (fun p => colors p.1)).dedup

/-- `ConflictGraph::cliques` after inserting `ns` in order: rebuild the
edges, color, check, and partition the nodes by color with bucket order
`σ`. -/
def cliquesModel (conflict : N → N → Bool) (σ : List Nat) (ns : List N) :
    Except ConflictGraphError (List (List N)) :=
  match colorGraph (cliquesKvs ns) (edgesFn conflict (cliquesKvs ns)) with
  | .error e => .error e
  | .ok (colors, _) =>
    match checkGraph conflict (cliquesKvs ns) colors with
    | .error e => .error e
    | .ok _ => .ok (partitionGroups (cliquesKvs ns) colors σ)

/-- The color assignment computed by the color pass of `cliques` (UNCOLORED
everywhere if the pass fails). -/
def cliquesColors (conflict : N → N → Bool) (ns : List N) : Nat → Nat :=
  match colorGraph (cliquesKvs ns) (edgesFn conflict (cliquesKvs ns)) with
  | .error _ => fun _ => UNCOLORED
  | .ok (colors, _) => colors

/-- `cliques` with the canonical bucket order. -/
def cliquesCanon (conflict : N → N → Bool) (ns : List N) :
    Except ConflictGraphError (List (List N)) :=
  cliquesModel conflict (canonicalOrder (cliquesKvs ns) (cliquesColors conflict ns)) ns

/-! ### Canonical form of an insert-only node store

Starting from an empty `SparseSet` and only inserting, `next_key` hands out
the keys `0, 1, 2, …` in order: the store is always `⟨range n ++ EMPTY pad,
range n, nodes⟩`.  (The length bound `≤ EMPTY_KEY` is a machine fact —
lengths never reach `usize::MAX` — needed because the model's `Nat` lengths
are unbounded.) -/

def canonSet (done : List N) (pad : Nat) : SparseSet N :=
  ⟨List.range done.length ++ List.replicate pad EMPTY_KEY, List.range done.length, done⟩

/-- The sequential greedy coloring the pass is equivalent to: walk the store
in order and give each node the smallest color not already used by one of
its (by then colored) neighbours. -/
def greedy (edges : Nat → Finset Nat) : List (Nat × N) → (Nat → Nat) → (Nat → Nat)
  | [], colors => colors
  | (k, _) :: rest, colors =>
    greedy edges rest (fun q =>
      if q = k then
        leastFresh (((edges k).val.filter (fun e => ¬ colors e = UNCOLORED)).map colors)
      else colors q)

/-! ## Systems and schedule resolution (src/systems.rs, src/world.rs) -/

/-- `WorldSystem`: identifier plus read- and write-handle lists (`name` and
the entry-point function play no role in conflict resolution and are
omitted; `ComponentSetId` is a compact integer handle, modelled as `Nat`). -/
structure WorldSystem where
  id : Nat
  reads : List Nat
  writes : List Nat
deriving DecidableEq, Repr

/-- `ConflictCmp for &WorldSystem`: conflict if a read of `self` matches a
write of `other`, or a write of `self` matches a read or a write of
`other`. -/
def conflict_cmp (a b : WorldSystem) : Bool :=
  a.reads.any (fun r => b.writes.any (fun w => r == w)) ||
    a.writes.any (fun w =>
      b.reads.any (fun r => w == r) || b.writes.any (fun ow => w == ow))

/-- `World::resolve_system_tree`: insert every registered system into a new
conflict graph (in store order), compute the cliques, and keep the system
ids of each group. -/
def resolveSystems (σ : List Nat) (systems : List WorldSystem) :
    Except ConflictGraphError (List (List Nat)) :=
  match cliquesModel conflict_cmp σ systems with
  | .error e => .error e
  | .ok groups => .ok (groups.map (fun g => g.map WorldSystem.id))

/-! ### Claim-side definitions for the coloring heuristic (C3)

These three definitions transcribe the claim's wording — the number of
*distinct* colors among already-colored neighbours, the number of
still-uncolored neighbours, and what it means to be the node the claim says
gets selected — for comparison against the selection the code makes. -/

def distinctNeighborColors (edges : Nat → Finset Nat) (colors : Nat → Nat)
    (k : Nat) : Nat :=
  (((edges k).filter (fun e => ¬ colors e = UNCOLORED)).image colors).card

def uncoloredNeighborCount (edges : Nat → Finset Nat) (colors : Nat → Nat)
    (k : Nat) : Nat :=
  ((edges k).filter (fun e => colors e = UNCOLORED)).card

/-- The claim's selection rule: an uncolored node with the greatest number
of distinct colors among its already-colored neighbours, ties broken in
favour of the most still-uncolored neighbours. -/
def IsClaimedChoice (kvs : List (Nat × N)) (edges : Nat → Finset Nat)
    (colors : Nat → Nat) (k : Nat) : Prop :=
  k ∈ kvs.map Prod.fst ∧ colors k = UNCOLORED ∧
    ∀ q ∈ kvs.map Prod.fst, colors q = UNCOLORED →
      distinctNeighborColors edges colors q ≤ distinctNeighborColors edges colors k ∧
        (distinctNeighborColors edges colors q =
            distinctNeighborColors edges colors k →
          uncoloredNeighborCount edges colors q ≤
            uncoloredNeighborCount edges colors k)

instance {N : Type} (kvs : List (Nat × N)) (edges : Nat → Finset Nat)
    (colors : Nat → Nat) (k : Nat) : Decidable (IsClaimedChoice kvs edges colors k) := by
  unfold IsClaimedChoice
  infer_instance

/-! ### A concrete three-system example

`exSysA` writes handle 0, `exSysC` reads handle 0 (so A and C conflict) and
`exSysB` touches nothing. -/

def exSysA : WorldSystem := ⟨0, [], [0]⟩

def exSysB : WorldSystem := ⟨1, [], []⟩

def exSysC : WorldSystem := ⟨2, [0], []⟩

def exSystems : List WorldSystem := [exSysA, exSysB, exSysC]

def exKvs : List (Nat × WorldSystem) := cliquesKvs exSystems

def exEdges : Nat → Finset Nat := edgesFn conflict_cmp exKvs

/-- The all-UNCOLORED state `color()` starts from. -/
def exColors0 : Nat → Nat := fun _ => UNCOLORED

/-- The color state after the first pass of `color()` on the example (the
update the first iteration of the `while` loop performs, with
`uncolored_count = 3` and no used colors yet). -/
def exColors1 : Nat → Nat := fun k =>
  if k = (candLoop exColors0 exEdges 3 exKvs defaultCandidate).graph_key then
    (chooseColor
      (candLoop exColors0 exEdges 3 exKvs defaultCandidate).forbidden_colors 0).1
  else exColors0 k

/-- The canonical bucket order used in the concrete example runs. -/
def exOrder : List Nat := canonicalOrder exKvs (cliquesColors conflict_cmp exSystems)

/-! ### Query filters (`query.rs`)

`ComponentSetId` wraps a `usize` → `Nat`.  The `f64` spatial payloads are
only stored and moved around by the sort, never read, so they are carried
as opaque `Int` values. -/

inductive QueryFilter where
  | componentAnyChanged (id : Nat)
  | componentChanged (id : Nat)
  | componentAccess (id : Nat)
  | componentWrite (id : Nat)
  | componentNot (id : Nat)
  | spatialCloserThan (dist : Int) (point : Int × Int × Int)
  | spatialFurtherThan (dist : Int) (point : Int × Int × Int)
deriving DecidableEq, Repr

/-- `QueryFilter::precedence` — lower value is higher precedence. -/
def QueryFilter.precedence : QueryFilter → Nat
  | .componentAnyChanged _ => 10
  | .componentChanged _ => 10
  | .spatialCloserThan _ _ => 10
  | .spatialFurtherThan _ _ => 10
  | .componentNot _ => 20
  | .componentWrite _ => 1000
  | .componentAccess _ => 1000

/-- `Vec::sort` on the filter set; `Ord` on `QueryFilter` compares
`precedence()` only.  Rust's sort is stable, and every stable sort by one
total preorder produces the same list, so insertion sort models it
exactly. -/
def sortFilters (fs : List QueryFilter) : List QueryFilter :=
  List.insertionSort (fun a b => a.precedence ≤ b.precedence) fs

/-- The two arms of the `match` in the pruning loop that truncate. -/
def isAccessOrWrite : QueryFilter → Bool
  | .componentAccess _ => true
  | .componentWrite _ => true
  | _ => false

/-- The loop of `sort_and_prune_filters` after the sort: at the first
access/write filter, index `i`, it calls `truncate(i)` — keeping only the
elements *before* that filter — and returns. -/
def pruneFilters : List QueryFilter → List QueryFilter
  | [] => []
  | f :: fs => if isAccessOrWrite f then [] else f :: pruneFilters fs

/-- `QueryBuilder::sort_and_prune_filters`, the pass `make()` runs. -/
def sortAndPruneFilters (fs : List QueryFilter) : List QueryFilter :=
  pruneFilters (sortFilters fs)

/-- What the claim says the pruning does: drop everything *after* the first
access/write filter, keeping that filter itself.  (Spec-worded, for
comparison with `sortAndPruneFilters`.) -/
def claimedPrune : List QueryFilter → List QueryFilter
  | [] => []
  | f :: fs => if isAccessOrWrite f then [f] else f :: claimedPrune fs

/-- `make()` as the claim describes it. -/
def claimedMake (fs : List QueryFilter) : List QueryFilter :=
  claimedPrune (sortFilters fs)

instance : IsTotal QueryFilter (fun a b => a.precedence ≤ b.precedence) :=
  ⟨fun _ _ => Nat.le_total _ _⟩

instance : IsTrans QueryFilter (fun a b => a.precedence ≤ b.precedence) :=
  ⟨fun _ _ _ => Nat.le_trans⟩

namespace SparseSet

variable {T : Type}

theorem reserveOk_sparse (s : SparseSet T) (a : Nat) :
    (s.reserveOk a).sparse = s.sparse ++ List.replicate a EMPTY_KEY := rfl

theorem reserveOk_dense (s : SparseSet T) (a : Nat) :
    (s.reserveOk a).dense = s.dense := rfl

theorem reserveOk_data (s : SparseSet T) (a : Nat) :
    (s.reserveOk a).data = s.data := rfl

theorem Inv.new (T : Type) : Inv (SparseSet.new T) := by
  refine ⟨rfl, by simp [SparseSet.new], ?_⟩
  intro i hi
  simp [SparseSet.new] at hi

theorem grow_lt (s : SparseSet T) (key : Nat) : key < (s.grow key).capacity := by
  suffices h : ∀ (fuel : Nat) (s : SparseSet T), key < s.capacity + fuel →
      key < (growAux fuel s key).capacity by
    exact h (key + 1) s (by omega)
  intro fuel
  induction fuel with
  | zero => intro s h; simpa [growAux] using h
  | succ n ih =>
    intro s h
    rw [growAux]
    by_cases hc : key < s.capacity
    · simp [hc]
    · simp only [hc, if_false]
      apply ih
      have h1 : 1 ≤ max 1 s.len := Nat.le_max_left 1 s.len
      simp only [reserveOk, capacity, List.length_append, List.length_replicate]
      simp only [capacity] at hc h
      omega

theorem growAux_sparse (fuel : Nat) (s : SparseSet T) (key : Nat) :
    ∃ n, (growAux fuel s key).sparse = s.sparse ++ List.replicate n EMPTY_KEY := by
  induction fuel generalizing s with
  | zero => exact ⟨0, by simp [growAux]⟩
  | succ n ih =>
    rw [growAux]
    by_cases hc : key < s.capacity
    · exact ⟨0, by simp [hc]⟩
    · simp only [hc, if_false]
      obtain ⟨m, hm⟩ := ih (s.reserveOk (max 1 s.len))
      refine ⟨max 1 s.len + m, ?_⟩
      rw [hm, reserveOk_sparse, List.append_assoc, ← List.replicate_add]

theorem grow_dense (s : SparseSet T) (key : Nat) : (s.grow key).dense = s.dense := by
  suffices h : ∀ (fuel : Nat) (s : SparseSet T), (growAux fuel s key).dense = s.dense by
    exact h (key + 1) s
  intro fuel
  induction fuel with
  | zero => intro s; simp [growAux]
  | succ n ih =>
    intro s
    rw [growAux]
    by_cases hc : key < s.capacity
    · simp [hc]
    · simp only [hc, if_false]
      rw [ih]
      rfl

theorem grow_data (s : SparseSet T) (key : Nat) : (s.grow key).data = s.data := by
  suffices h : ∀ (fuel : Nat) (s : SparseSet T), (growAux fuel s key).data = s.data by
    exact h (key + 1) s
  intro fuel
  induction fuel with
  | zero => intro s; simp [growAux]
  | succ n ih =>
    intro s
    rw [growAux]
    by_cases hc : key < s.capacity
    · simp [hc]
    · simp only [hc, if_false]
      rw [ih]
      rfl

theorem grow_sparse (s : SparseSet T) (key : Nat) :
    ∃ n, (s.grow key).sparse = s.sparse ++ List.replicate n EMPTY_KEY :=
  growAux_sparse (key + 1) s key

/-! ### List index utilities -/

theorem getD_append_left {α : Type} {l l' : List α} {i : Nat} {d : α} (h : i < l.length) :
    (l ++ l').getD i d = l.getD i d := by
  rw [List.getD_eq_getElem?_getD, List.getD_eq_getElem?_getD, List.getElem?_append]
  simp [h]

theorem getD_append_right {α : Type} {l l' : List α} {i : Nat} {d : α} (h : l.length ≤ i) :
    (l ++ l').getD i d = l'.getD (i - l.length) d := by
  rw [List.getD_eq_getElem?_getD, List.getD_eq_getElem?_getD, List.getElem?_append_right h]

theorem getD_set_eq {α : Type} {l : List α} {i : Nat} {d v : α} (h : i < l.length) :
    (l.set i v).getD i d = v := by
  rw [List.getD_eq_getElem?_getD, List.getElem?_set_self']
  simp [List.getElem?_eq_getElem h]

theorem getD_set_ne {α : Type} {l : List α} {i j : Nat} {d v : α} (h : j ≠ i) :
    (l.set i v).getD j d = l.getD j d := by
  rw [List.getD_eq_getElem?_getD, List.getD_eq_getElem?_getD,
    List.getElem?_set_ne (Ne.symm h)]

theorem getD_dropLast {α : Type} {l : List α} {i : Nat} {d : α} (h : i + 1 < l.length) :
    (l.dropLast).getD i d = l.getD i d := by
  have h2 : i < l.dropLast.length := by simp [List.length_dropLast]; omega
  rw [List.getD_eq_getElem _ _ h2, List.getD_eq_getElem _ _ (by omega)]
  exact List.getElem_dropLast l i h2

theorem getD_mem {α : Type} {l : List α} {i : Nat} {d : α} (h : i < l.length) :
    l.getD i d ∈ l := by
  rw [List.getD_eq_getElem _ _ h]; exact List.getElem_mem h

/-! ### Characterizations under the invariant -/

theorem get_idx_eq_some {s : SparseSet T} {key idx : Nat} :
    s.get_idx key = some idx ↔
      key < s.capacity ∧ s.sparse.getD key 0 = idx ∧ idx < s.len ∧
        s.dense.getD idx 0 = key := by
  unfold get_idx
  by_cases h1 : key ≥ s.capacity
  · simp [h1]
  · simp only [h1, if_false]
    by_cases h2 : s.sparse.getD key 0 < s.len
    · by_cases h3 : s.dense.getD (s.sparse.getD key 0) 0 = key
      · simp only [h2, if_true, h3, if_pos]
        constructor
        · rintro h; cases h; exact ⟨by omega, rfl, h2, h3⟩
        · rintro ⟨-, rfl, -, -⟩; rfl
      · simp only [h2, if_true, h3, if_false]
        constructor
        · rintro h; cases h
        · rintro ⟨-, rfl, -, h⟩; exact absurd h h3
    · simp only [h2, if_false]
      constructor
      · rintro h; cases h
      · rintro ⟨-, rfl, h, -⟩; exact absurd h h2

theorem dense_nodup {s : SparseSet T} (hInv : Inv s) : s.dense.Nodup := by
  rw [List.nodup_iff_injective_get]
  intro ⟨i, hi⟩ ⟨j, hj⟩ hij
  have hgi : s.dense.get ⟨i, hi⟩ = s.dense.getD i 0 := (List.getD_eq_getElem _ _ hi).symm
  have hgj : s.dense.get ⟨j, hj⟩ = s.dense.getD j 0 := (List.getD_eq_getElem _ _ hj).symm
  have h1 := (hInv.roundtrip i hi).2
  have h2 := (hInv.roundtrip j hj).2
  have : s.dense.getD i 0 = s.dense.getD j 0 := by rw [← hgi, ← hgj, hij]
  have : i = j := by rw [← h1, ← h2, this]
  exact Fin.ext this

theorem mem_dense_iff {s : SparseSet T} (hInv : Inv s) {key : Nat} :
    key ∈ s.dense ↔ (s.get_idx key).isSome := by
  constructor
  · intro hmem
    obtain ⟨i, hi, hget⟩ := List.getElem_of_mem hmem
    have hD : s.dense.getD i 0 = key := by rw [List.getD_eq_getElem _ _ hi]; exact hget
    obtain ⟨hlt, hrt⟩ := hInv.roundtrip i hi
    have : s.get_idx key = some i := by
      rw [get_idx_eq_some]
      exact ⟨by rw [← hD]; exact hlt, by rw [← hD, hrt], hi, hD⟩
    simp [this]
  · intro hsome
    obtain ⟨i, hi⟩ := Option.isSome_iff_exists.mp hsome
    obtain ⟨-, -, hlen, hD⟩ := get_idx_eq_some.mp hi
    rw [← hD]
    exact getD_mem hlen

theorem contains_iff_mem_dense {s : SparseSet T} (hInv : Inv s) {key : Nat} :
    s.contains key = true ↔ key ∈ s.dense := by
  unfold contains
  rw [mem_dense_iff hInv]

theorem dense_lt_capacity {s : SparseSet T} (hInv : Inv s) {key : Nat}
    (h : key ∈ s.dense) : key < s.capacity := by
  obtain ⟨i, hi, hget⟩ := List.getElem_of_mem h
  have hD : s.dense.getD i 0 = key := by rw [List.getD_eq_getElem _ _ hi]; exact hget
  have := (hInv.roundtrip i hi).1
  rw [hD] at this
  exact this

theorem getD_replicate' {α : Type} {n i : Nat} {a d : α} (h : i < n) :
    (List.replicate n a).getD i d = a := by
  rw [List.getD_eq_getElem _ _ (by simpa using h)]
  simp

/-- If a key below the capacity is absent, the set cannot be full
(pigeonhole over the duplicate-free `dense` array). -/
theorem len_lt_capacity_of_not_mem {s : SparseSet T} (hInv : Inv s) {key : Nat}
    (hk : key < s.capacity) (habs : key ∉ s.dense) : s.len < s.capacity := by
  rcases Nat.lt_or_ge s.len s.capacity with h | h
  · exact h
  · exfalso
    have hsub : s.dense ⊆ List.range s.capacity := by
      intro x hx
      rw [List.mem_range]
      exact dense_lt_capacity hInv hx
    have hperm : s.dense.Perm (List.range s.capacity) :=
      List.Subperm.perm_of_length_le (List.subperm_of_subset (dense_nodup hInv) hsub)
        (by simpa [len] using h)
    exact habs (hperm.symm.subset (by simpa using hk))

/-- Growing the sparse array does not change the result of any lookup: old
slots are untouched, and a freshly appended `EMPTY_KEY` slot can never pass
the round-trip check because every dense entry is below the old capacity. -/
theorem get_idx_grow {s : SparseSet T} (hInv : Inv s) (key k : Nat) :
    (s.grow key).get_idx k = s.get_idx k := by
  obtain ⟨n, hsp⟩ := grow_sparse s key
  have hde := grow_dense s key
  have hlen : (s.grow key).len = s.len := by simp [len, hde]
  have hcap : (s.grow key).capacity = s.capacity + n := by
    simp [capacity, hsp, List.length_append]
  have hcs : s.capacity = s.sparse.length := rfl
  by_cases hk : k < s.capacity
  · unfold get_idx
    rw [hsp, hde, hlen, hcap, getD_append_left (by omega)]
    have h1 : ¬ k ≥ s.capacity + n := by omega
    have h2 : ¬ k ≥ s.capacity := by omega
    rw [if_neg h1, if_neg h2]
  · have hk3 : s.capacity ≤ k := Nat.le_of_not_lt hk
    have hnone : s.get_idx k = none := by
      unfold get_idx
      rw [if_pos hk3]
    rw [hnone]
    unfold get_idx
    by_cases hk2 : k ≥ (s.grow key).capacity
    · rw [if_pos hk2]
    · rw [if_neg hk2]
      rw [hsp, hde, hlen]
      have hkr : k - s.sparse.length < n := by
        rw [hcap] at hk2
        omega
      rw [getD_append_right (by omega), getD_replicate' hkr]
      by_cases hE : EMPTY_KEY < s.len
      · have hmem : s.dense.getD EMPTY_KEY 0 ∈ s.dense := getD_mem (by simpa [len] using hE)
        have hlt : s.dense.getD EMPTY_KEY 0 < s.capacity := dense_lt_capacity hInv hmem
        have hne : s.dense.getD EMPTY_KEY 0 ≠ k := by omega
        rw [if_pos hE, if_neg hne]
      · rw [if_neg hE]

theorem inv_grow {s : SparseSet T} (hInv : Inv s) (key : Nat) : Inv (s.grow key) := by
  obtain ⟨n, hsp⟩ := grow_sparse s key
  have hde := grow_dense s key
  have hda := grow_data s key
  refine ⟨by rw [hde, hda]; exact hInv.len_data, ?_, ?_⟩
  · rw [hde, hsp]
    simp only [List.length_append]
    exact Nat.le_add_right_of_le hInv.len_cap
  · intro i hi
    rw [hde] at hi ⊢
    rw [hsp]
    obtain ⟨h1, h2⟩ := hInv.roundtrip i hi
    refine ⟨by simp only [List.length_append]; omega, ?_⟩
    rw [getD_append_left h1]
    exact h2

/-! ### swap-remove -/

theorem swapRemove_length {α : Type} {l : List α} (h : l ≠ []) (idx : Nat) :
    (swapRemove l idx).length = l.length - 1 := by
  unfold swapRemove
  rw [List.getLast?_eq_getLast l h]
  simp [List.length_dropLast]

theorem swapRemove_getD {α : Type} {l : List α} {idx i : Nat} {d : α}
    (hne : l ≠ []) (hi : i + 1 < l.length) :
    (swapRemove l idx).getD i d =
      if i = idx then l.getD (l.length - 1) d else l.getD i d := by
  unfold swapRemove
  rw [List.getLast?_eq_getLast l hne]
  rw [getD_dropLast (by simpa using hi)]
  by_cases h : i = idx
  · subst h
    rw [getD_set_eq (by omega), if_pos rfl]
    rw [List.getLast_eq_getElem, List.getD_eq_getElem _ _ (by omega)]
  · rw [getD_set_ne h, if_neg h]

/-! ### `insert_with` -/

theorem insert_with_eq_of_live {s : SparseSet T} {key idx : Nat} (v : T)
    (hInv : Inv s) (h : s.get_idx key = some idx) :
    s.insert_with key v = ((s.grow key).data[idx]?, (s.grow key).overwriteAt idx v) := by
  unfold insert_with
  rw [get_idx_grow hInv, h]

theorem insert_with_eq_of_absent {s : SparseSet T} {key : Nat} (v : T)
    (hInv : Inv s) (h : s.get_idx key = none) :
    s.insert_with key v = (none, (s.grow key).appendFresh key v) := by
  unfold insert_with
  rw [get_idx_grow hInv, h]

theorem inv_insert_with {s : SparseSet T} (hInv : Inv s) (key : Nat) (v : T) :
    Inv (s.insert_with key v).2 := by
  have hg := inv_grow hInv key
  cases hidx : s.get_idx key with
  | some idx =>
    rw [insert_with_eq_of_live v hInv hidx]
    unfold overwriteAt
    exact ⟨by simpa using hg.len_data, hg.len_cap, hg.roundtrip⟩
  | none =>
    rw [insert_with_eq_of_absent v hInv hidx]
    unfold appendFresh
    have hde := grow_dense s key
    have hkey_lt : key < (s.grow key).capacity := grow_lt s key
    have hkey_abs : key ∉ (s.grow key).dense := by
      rw [hde]
      intro hmem
      have := (mem_dense_iff hInv).mp hmem
      rw [hidx] at this
      cases this
    have hfull : (s.grow key).len < (s.grow key).capacity :=
      len_lt_capacity_of_not_mem hg hkey_lt hkey_abs
    constructor
    · simp only [List.length_append, List.length_cons, List.length_nil]
      rw [hg.len_data]
    · simp only [List.length_append, List.length_cons, List.length_nil, List.length_set]
      simp only [len, capacity] at hfull
      omega
    · intro i hi
      simp only [List.length_append, List.length_cons, List.length_nil] at hi
      simp only [List.length_set]
      by_cases hlt : i < (s.grow key).dense.length
      · obtain ⟨h1, h2⟩ := hg.roundtrip i hlt
        rw [getD_append_left hlt]
        have hne : (s.grow key).dense.getD i 0 ≠ key := by
          intro heq
          have hmem := getD_mem (d := 0) hlt
          rw [heq] at hmem
          exact hkey_abs hmem
        refine ⟨by simpa [capacity] using h1, ?_⟩
        rw [getD_set_ne hne]
        exact h2
      · have hieq : i = (s.grow key).dense.length := by omega
        subst hieq
        rw [getD_append_right (le_refl _), Nat.sub_self]
        simp only [List.getD_cons_zero]
        refine ⟨by simpa [capacity] using hkey_lt, ?_⟩
        rw [getD_set_eq (by simpa [capacity] using hkey_lt)]
        rfl

theorem get_insert_with_self {s : SparseSet T} (hInv : Inv s) (key : Nat) (v : T) :
    ((s.insert_with key v).2).get key = some v := by
  have hg := inv_grow hInv key
  cases hidx : s.get_idx key with
  | some idx =>
    rw [insert_with_eq_of_live v hInv hidx]
    obtain ⟨hcap, hsp, hlen, hD⟩ := get_idx_eq_some.mp hidx
    have hgidx : (s.grow key).get_idx key = some idx := by
      rw [get_idx_grow hInv, hidx]
    have hidx2 : ((s.grow key).overwriteAt idx v).get_idx key = some idx := hgidx
    unfold get
    rw [hidx2]
    unfold overwriteAt
    have hlt : idx < (s.grow key).data.length := by
      rw [← hg.len_data, grow_dense]
      simpa [len] using hlen
    simp only
    rw [List.getElem?_set_self']
    simp [List.getElem?_eq_getElem hlt]
  | none =>
    rw [insert_with_eq_of_absent v hInv hidx]
    have hkey_lt : key < (s.grow key).capacity := grow_lt s key
    have hkey_abs : key ∉ (s.grow key).dense := by
      rw [grow_dense]
      intro hmem
      have := (mem_dense_iff hInv).mp hmem
      rw [hidx] at this
      cases this
    have hfull : (s.grow key).len < (s.grow key).capacity :=
      len_lt_capacity_of_not_mem hg hkey_lt hkey_abs
    have hidx2 : ((s.grow key).appendFresh key v).get_idx key =
        some (s.grow key).len := by
      rw [get_idx_eq_some]
      unfold appendFresh
      refine ⟨?_, ?_, ?_, ?_⟩
      · simpa [capacity, List.length_set] using hkey_lt
      · exact getD_set_eq (by simpa [capacity] using hkey_lt)
      · simp only [len, List.length_append, List.length_cons, List.length_nil]
        omega
      · have hl : (s.grow key).len = (s.grow key).dense.length := rfl
        rw [hl, getD_append_right (le_refl _), Nat.sub_self]
        rfl
    unfold get
    rw [hidx2]
    unfold appendFresh
    have hld : (s.grow key).len = (s.grow key).data.length := by
      rw [← hg.len_data]; rfl
    simp only
    rw [hld, List.getElem?_append_right (le_refl _), Nat.sub_self]
    rfl

theorem get_idx_overwriteAt (s : SparseSet T) (idx : Nat) (v : T) (k : Nat) :
    (s.overwriteAt idx v).get_idx k = s.get_idx k := rfl

/-- Appending a fresh key does not affect lookups of other keys. -/
theorem get_idx_appendFresh_ne {s : SparseSet T} {key k : Nat} (v : T) (hne : k ≠ key) :
    (s.appendFresh key v).get_idx k = s.get_idx k := by
  unfold get_idx appendFresh
  simp only [capacity, len, List.length_set, List.length_append, List.length_cons,
    List.length_nil]
  by_cases h1 : k ≥ s.sparse.length
  · rw [if_pos h1, if_pos h1]
  · rw [if_neg h1, if_neg h1, getD_set_ne hne]
    by_cases h2 : s.sparse.getD k 0 < s.dense.length
    · rw [if_pos (by omega), if_pos h2, getD_append_left h2]
    · rw [if_neg h2]
      by_cases h3 : s.sparse.getD k 0 < s.dense.length + 1
      · rw [if_pos h3]
        have he : s.sparse.getD k 0 = s.dense.length := by omega
        rw [he, getD_append_right (le_refl _), Nat.sub_self]
        have : ¬ (([key] : List Nat).getD 0 0 = k) := by
          simpa using (Ne.symm hne)
        rw [if_neg this]
      · rw [if_neg h3]

theorem get_insert_with_ne {s : SparseSet T} (hInv : Inv s) {key k : Nat} (v : T)
    (hne : k ≠ key) : ((s.insert_with key v).2).get k = s.get k := by
  have hg := inv_grow hInv key
  cases hidx : s.get_idx key with
  | some idx =>
    rw [insert_with_eq_of_live v hInv hidx]
    obtain ⟨-, -, hlen, hD⟩ := get_idx_eq_some.mp hidx
    unfold get
    rw [get_idx_overwriteAt, get_idx_grow hInv]
    cases hj : s.get_idx k with
    | none => rfl
    | some j =>
      obtain ⟨-, -, hjlen, hjD⟩ := get_idx_eq_some.mp hj
      have hji : j ≠ idx := by
        intro h
        rw [h] at hjD
        rw [hjD] at hD
        exact hne hD
      simp only [overwriteAt, grow_data]
      rw [List.getElem?_set_ne (Ne.symm hji)]
  | none =>
    rw [insert_with_eq_of_absent v hInv hidx]
    unfold get
    rw [get_idx_appendFresh_ne v hne, get_idx_grow hInv]
    cases hj : s.get_idx k with
    | none => rfl
    | some j =>
      obtain ⟨-, -, hjlen, -⟩ := get_idx_eq_some.mp hj
      simp only [appendFresh, grow_data]
      rw [List.getElem?_append_left]
      rw [← hInv.len_data]
      simpa [len] using hjlen

theorem len_insert_with {s : SparseSet T} (hInv : Inv s) (key : Nat) (v : T) :
    ((s.insert_with key v).2).len =
      if s.contains key then s.len else s.len + 1 := by
  cases hidx : s.get_idx key with
  | some idx =>
    rw [insert_with_eq_of_live v hInv hidx]
    have : s.contains key = true := by simp [contains, hidx]
    rw [if_pos this]
    simp only [overwriteAt, len, grow_dense]
  | none =>
    rw [insert_with_eq_of_absent v hInv hidx]
    have : ¬ s.contains key = true := by simp [contains, hidx]
    rw [if_neg this]
    simp only [appendFresh, len, List.length_append, List.length_cons, List.length_nil,
      grow_dense]

theorem swapRemove_getElem? {α : Type} {l : List α} {idx i : Nat}
    (hne : l ≠ []) (hi : i + 1 < l.length) :
    (swapRemove l idx)[i]? =
      if i = idx then l[l.length - 1]? else l[i]? := by
  have h1 : i < (swapRemove l idx).length := by
    rw [swapRemove_length hne]
    omega
  have h2 : l.length - 1 < l.length := by omega
  have h3 : i < l.length := by omega
  rcases Decidable.em (i = idx) with h | h
  · rw [if_pos h, List.getElem?_eq_getElem h1, List.getElem?_eq_getElem h2]
    have := @swapRemove_getD _ l idx i (l[l.length - 1]) hne hi
    rw [if_pos h] at this
    rw [List.getD_eq_getElem _ _ h1, List.getD_eq_getElem _ _ h2] at this
    rw [this]
  · rw [if_neg h, List.getElem?_eq_getElem h1, List.getElem?_eq_getElem h3]
    have := @swapRemove_getD _ l idx i (l[l.length - 1]) hne hi
    rw [if_neg h] at this
    rw [List.getD_eq_getElem _ _ h1, List.getD_eq_getElem _ _ h3] at this
    rw [this]

/-! ### `remove` -/

theorem getLastD_eq_getD {α : Type} {l : List α} (h : l ≠ []) (d : α) :
    l.getLast?.getD d = l.getD (l.length - 1) d := by
  have hlt : l.length - 1 < l.length := by
    have := List.length_pos.mpr h
    omega
  rw [List.getLast?_eq_getLast l h, Option.getD_some, List.getLast_eq_getElem,
    List.getD_eq_getElem _ _ hlt]

theorem nodup_getD_ne {l : List Nat} (h : l.Nodup) {p q : Nat}
    (hp : p < l.length) (hq : q < l.length) (hne : p ≠ q) :
    l.getD p 0 ≠ l.getD q 0 := by
  rw [List.getD_eq_getElem _ _ hp, List.getD_eq_getElem _ _ hq]
  intro he
  have := List.nodup_iff_injective_get.mp h
    (show l.get ⟨p, hp⟩ = l.get ⟨q, hq⟩ by simpa [List.get_eq_getElem] using he)
  exact hne (congrArg Fin.val this)

theorem remove_eq_of_absent {s : SparseSet T} {key : Nat} (h : s.get_idx key = none) :
    s.remove key = (none, s) := by
  unfold remove
  rw [h]

theorem remove_eq_of_live {s : SparseSet T} {key idx : Nat} (h : s.get_idx key = some idx) :
    s.remove key = (s.data[idx]?, s.removeAt key idx) := by
  unfold remove
  rw [h]

theorem removeAt_sparse_length {s : SparseSet T} (key idx : Nat) :
    (s.removeAt key idx).sparse.length = s.sparse.length := by
  unfold removeAt
  by_cases h : 0 < (swapRemove s.dense idx).length <;> simp [h, List.length_set]

/-- The sparse slot of a key other than the removed key and other than the
swapped (last) key is unchanged by `removeAt`. -/
theorem removeAt_sparse_getD_other {s : SparseSet T} {key idx x : Nat}
    (hxk : x ≠ key) (hxs : x ≠ s.dense.getLast?.getD 0) :
    (s.removeAt key idx).sparse.getD x 0 = s.sparse.getD x 0 := by
  unfold removeAt
  simp only
  rw [getD_set_ne hxk]
  by_cases h : 0 < (swapRemove s.dense idx).length
  · rw [if_pos h, getD_set_ne hxs]
  · rw [if_neg h]

theorem removeAt_sparse_getD_key {s : SparseSet T} {key idx : Nat}
    (hk : key < s.sparse.length) :
    (s.removeAt key idx).sparse.getD key 0 = EMPTY_KEY := by
  unfold removeAt
  simp only
  refine getD_set_eq ?_
  by_cases h : 0 < (swapRemove s.dense idx).length <;> simp [h, List.length_set, hk]

theorem removeAt_sparse_getD_swap {s : SparseSet T} {key idx : Nat}
    (hpos : 0 < (swapRemove s.dense idx).length)
    (hsk : s.dense.getLast?.getD 0 ≠ key)
    (hs : s.dense.getLast?.getD 0 < s.sparse.length) :
    (s.removeAt key idx).sparse.getD (s.dense.getLast?.getD 0) 0 = idx := by
  unfold removeAt
  simp only
  rw [getD_set_ne hsk, if_pos hpos, getD_set_eq hs]

theorem inv_removeAt {s : SparseSet T} (hInv : Inv s) {key idx : Nat}
    (h : s.get_idx key = some idx) : Inv (s.removeAt key idx) := by
  obtain ⟨hcap, hsp, hlen, hD⟩ := get_idx_eq_some.mp h
  have hnd : s.dense ≠ [] := List.ne_nil_of_length_pos (by simp only [len] at hlen; omega)
  have hda : s.data ≠ [] := by
    refine List.ne_nil_of_length_pos ?_
    rw [← hInv.len_data]
    simp only [len] at hlen
    omega
  have hnodup := dense_nodup hInv
  have hidxlen : idx < s.dense.length := by simpa [len] using hlen
  have hlast := getLastD_eq_getD hnd (0 : Nat)
  have hlastlen : s.dense.length - 1 < s.dense.length := by omega
  constructor
  · unfold removeAt
    simp only
    rw [swapRemove_length hnd, swapRemove_length hda, hInv.len_data]
  · show (s.removeAt key idx).dense.length ≤ (s.removeAt key idx).sparse.length
    rw [removeAt_sparse_length]
    have h1 : (s.removeAt key idx).dense.length = s.dense.length - 1 := by
      unfold removeAt
      simp only
      exact swapRemove_length hnd idx
    rw [h1]
    have := hInv.len_cap
    omega
  · intro j hj
    have hjlen : j < (swapRemove s.dense idx).length := by
      unfold removeAt at hj
      simpa using hj
    rw [swapRemove_length hnd] at hjlen
    have hdj : (s.removeAt key idx).dense.getD j 0 =
        if j = idx then s.dense.getD (s.dense.length - 1) 0 else s.dense.getD j 0 := by
      unfold removeAt
      simp only
      exact swapRemove_getD hnd (by omega)
    rw [removeAt_sparse_length]
    by_cases hji : j = idx
    · subst hji
      have hjne : j ≠ s.dense.length - 1 := by omega
      have hswapne : s.dense.getD (s.dense.length - 1) 0 ≠ key := by
        rw [← hD]
        exact nodup_getD_ne hnodup hlastlen hidxlen (by omega)
      rw [hdj, if_pos rfl]
      obtain ⟨hswlt, -⟩ := hInv.roundtrip (s.dense.length - 1) hlastlen
      refine ⟨hswlt, ?_⟩
      have := @removeAt_sparse_getD_swap _ s key j
        (by rw [swapRemove_length hnd]; omega) (by rw [hlast]; exact hswapne)
        (by rw [hlast]; exact hswlt)
      rw [hlast] at this
      exact this
    · rw [hdj, if_neg hji]
      obtain ⟨hjlt, hjrt⟩ := hInv.roundtrip j (by omega)
      refine ⟨hjlt, ?_⟩
      have hne_key : s.dense.getD j 0 ≠ key := by
        rw [← hD]
        exact nodup_getD_ne hnodup (by omega) hidxlen hji
      have hne_swap : s.dense.getD j 0 ≠ s.dense.getLast?.getD 0 := by
        rw [hlast]
        exact nodup_getD_ne hnodup (by omega) hlastlen (by omega)
      rw [removeAt_sparse_getD_other hne_key hne_swap]
      exact hjrt

theorem removeAt_len {s : SparseSet T} (hnd : s.dense ≠ []) (key idx : Nat) :
    (s.removeAt key idx).len = s.dense.length - 1 := by
  unfold removeAt len
  simp only
  exact swapRemove_length hnd idx

theorem get_idx_removeAt_key {s : SparseSet T} (hInv : Inv s) {key idx : Nat}
    (h : s.get_idx key = some idx) : (s.removeAt key idx).get_idx key = none := by
  obtain ⟨hcap, hsp, hlen, hD⟩ := get_idx_eq_some.mp h
  have hnd : s.dense ≠ [] := List.ne_nil_of_length_pos (by simp only [len] at hlen; omega)
  have hnodup := dense_nodup hInv
  have hidxlen : idx < s.dense.length := by simpa [len] using hlen
  cases hres : (s.removeAt key idx).get_idx key with
  | none => rfl
  | some j =>
    exfalso
    obtain ⟨-, hsp2, hlen2, hD2⟩ := get_idx_eq_some.mp hres
    rw [removeAt_sparse_getD_key (by simpa [capacity] using hcap)] at hsp2
    subst hsp2
    rw [removeAt_len hnd] at hlen2
    have hdrem : (s.removeAt key idx).dense.getD EMPTY_KEY 0 =
        if EMPTY_KEY = idx then s.dense.getD (s.dense.length - 1) 0
        else s.dense.getD EMPTY_KEY 0 := by
      unfold removeAt
      simp only
      exact swapRemove_getD hnd (by omega)
    rw [hdrem] at hD2
    by_cases hEi : EMPTY_KEY = idx
    · rw [if_pos hEi] at hD2
      have hne2 : s.dense.getD (s.dense.length - 1) 0 ≠ s.dense.getD idx 0 :=
        nodup_getD_ne hnodup (by omega) hidxlen (by omega)
      rw [hD, hD2] at hne2
      exact hne2 rfl
    · rw [if_neg hEi] at hD2
      have hne2 : s.dense.getD EMPTY_KEY 0 ≠ s.dense.getD idx 0 :=
        nodup_getD_ne hnodup (by omega) hidxlen hEi
      rw [hD, hD2] at hne2
      exact hne2 rfl

theorem get_remove_self {s : SparseSet T} (hInv : Inv s) (key : Nat) :
    ((s.remove key).2).get key = none := by
  cases h : s.get_idx key with
  | none =>
    rw [remove_eq_of_absent h]
    unfold get
    rw [h]
  | some idx =>
    rw [remove_eq_of_live h]
    unfold get
    rw [get_idx_removeAt_key hInv h]

theorem get_remove_ne {s : SparseSet T} (hInv : Inv s) {key k : Nat} (hne : k ≠ key) :
    ((s.remove key).2).get k = s.get k := by
  cases h : s.get_idx key with
  | none => rw [remove_eq_of_absent h]
  | some idx =>
    rw [remove_eq_of_live h]
    obtain ⟨hcap, hsp, hlen, hD⟩ := get_idx_eq_some.mp h
    have hnd : s.dense ≠ [] := List.ne_nil_of_length_pos (by simp only [len] at hlen; omega)
    have hda : s.data ≠ [] := by
      refine List.ne_nil_of_length_pos ?_
      rw [← hInv.len_data]
      simp only [len] at hlen
      omega
    have hnodup := dense_nodup hInv
    have hidxlen : idx < s.dense.length := by simpa [len] using hlen
    have hlast := getLastD_eq_getD hnd (0 : Nat)
    have hdrem : ∀ j, j < s.dense.length - 1 →
        (s.removeAt key idx).dense.getD j 0 =
          if j = idx then s.dense.getD (s.dense.length - 1) 0 else s.dense.getD j 0 := by
      intro j hj
      unfold removeAt
      simp only
      exact swapRemove_getD hnd (by omega)
    cases hk : s.get_idx k with
    | some j =>
      obtain ⟨hkcap, hksp, hklen, hkD⟩ := get_idx_eq_some.mp hk
      have hkjlen : j < s.dense.length := by simpa [len] using hklen
      have hji : j ≠ idx := by
        intro he
        rw [he, hD] at hkD
        exact hne hkD.symm
      by_cases hjlast : j = s.dense.length - 1
      · have hkswap : s.dense.getLast?.getD 0 = k := by
          rw [hlast, ← hjlast]
          exact hkD
        have hpos : 0 < s.dense.length - 1 := by omega
        have hres : (s.removeAt key idx).get_idx k = some idx := by
          rw [get_idx_eq_some]
          refine ⟨?_, ?_, ?_, ?_⟩
          · show k < (s.removeAt key idx).sparse.length
            rw [removeAt_sparse_length]
            simpa [capacity] using hkcap
          · have := @removeAt_sparse_getD_swap _ s key idx
              (by rw [swapRemove_length hnd]; omega)
              (by rw [hkswap]; exact hne)
              (by rw [hkswap]; simpa [capacity] using hkcap)
            rw [hkswap] at this
            exact this
          · show idx < (s.removeAt key idx).len
            rw [removeAt_len hnd]
            omega
          · rw [hdrem idx (by omega), if_pos rfl, ← hjlast]
            exact hkD
        unfold get
        rw [hres, hk]
        show (swapRemove s.data idx)[idx]? = s.data[j]?
        rw [swapRemove_getElem? hda (by rw [← hInv.len_data]; omega), if_pos rfl]
        rw [← hInv.len_data, ← hjlast]
      · have hjlt : j < s.dense.length - 1 := by omega
        have hkswapne : k ≠ s.dense.getLast?.getD 0 := by
          rw [hlast, ← hkD]
          exact nodup_getD_ne hnodup hkjlen (by omega) hjlast
        have hres : (s.removeAt key idx).get_idx k = some j := by
          rw [get_idx_eq_some]
          refine ⟨?_, ?_, ?_, ?_⟩
          · show k < (s.removeAt key idx).sparse.length
            rw [removeAt_sparse_length]
            simpa [capacity] using hkcap
          · rw [removeAt_sparse_getD_other hne hkswapne]
            exact hksp
          · show j < (s.removeAt key idx).len
            rw [removeAt_len hnd]
            omega
          · rw [hdrem j (by omega), if_neg hji]
            exact hkD
        unfold get
        rw [hres, hk]
        show (swapRemove s.data idx)[j]? = s.data[j]?
        rw [swapRemove_getElem? hda (by rw [← hInv.len_data]; omega), if_neg hji]
    | none =>
      have hres : (s.removeAt key idx).get_idx k = none := by
        cases hres : (s.removeAt key idx).get_idx k with
        | none => rfl
        | some j =>
          exfalso
          obtain ⟨hc2, hs2, hl2, hd2⟩ := get_idx_eq_some.mp hres
          have hswap_mem : s.dense.getLast?.getD 0 ∈ s.dense := by
            rw [hlast]
            exact getD_mem (by omega)
          have hks : k ≠ s.dense.getLast?.getD 0 := by
            intro he
            have := (mem_dense_iff hInv).mp (he ▸ hswap_mem)
            rw [hk] at this
            cases this
          rw [removeAt_sparse_getD_other hne hks] at hs2
          rw [removeAt_len hnd] at hl2
          rw [hdrem j (by omega)] at hd2
          by_cases hEi : j = idx
          · rw [if_pos hEi] at hd2
            exact hks (by rw [hlast, hd2])
          · rw [if_neg hEi] at hd2
            have : s.get_idx k = some j := by
              rw [get_idx_eq_some]
              refine ⟨?_, hs2, ?_, hd2⟩
              · show k < s.sparse.length
                have := removeAt_sparse_length (s := s) key idx
                simp only [capacity] at hc2 ⊢
                rw [← this]
                exact hc2
              · show j < s.len
                simp only [len]
                omega
            rw [hk] at this
            cases this
      unfold get
      rw [hres, hk]

theorem len_remove {s : SparseSet T} (key : Nat) :
    ((s.remove key).2).len = s.len - (if s.contains key then 1 else 0) := by
  cases h : s.get_idx key with
  | none =>
    rw [remove_eq_of_absent h]
    have : ¬ s.contains key = true := by simp [contains, h]
    rw [if_neg this]
    simp
  | some idx =>
    rw [remove_eq_of_live h]
    obtain ⟨-, -, hlen, -⟩ := get_idx_eq_some.mp h
    have hnd : s.dense ≠ [] := List.ne_nil_of_length_pos (by simp only [len] at hlen; omega)
    have : s.contains key = true := by simp [contains, h]
    rw [if_pos this, removeAt_len hnd]
    rfl

theorem inv_remove {s : SparseSet T} (hInv : Inv s) (key : Nat) :
    Inv (s.remove key).2 := by
  cases h : s.get_idx key with
  | none => rw [remove_eq_of_absent h]; exact hInv
  | some idx => rw [remove_eq_of_live h]; exact inv_removeAt hInv h

theorem len_eq_liveCount {s : SparseSet T} (hInv : Inv s) : s.len = liveCount s := by
  have hperm : ((List.range s.capacity).filter (fun k => s.contains k)).Perm s.dense := by
    rw [List.perm_ext_iff_of_nodup ((List.nodup_range s.capacity).filter _)
      (dense_nodup hInv)]
    intro a
    rw [List.mem_filter, List.mem_range, contains_iff_mem_dense hInv]
    constructor
    · rintro ⟨-, h⟩; exact h
    · intro h; exact ⟨dense_lt_capacity hInv h, h⟩
  unfold liveCount len
  rw [hperm.length_eq]

end SparseSet

theorem runSparseOps_correct {T : Type} (ops : List (SparseOp T)) :
    SparseSet.Inv (runSparseOps ops) ∧
      ∀ k, (runSparseOps ops).get k = specMapOf ops k := by
  suffices h : ∀ (ops : List (SparseOp T)) (s : SparseSet T) (m : Nat → Option T),
      SparseSet.Inv s → (∀ k, s.get k = m k) →
      SparseSet.Inv (ops.foldl applySparseOp s) ∧
        ∀ k, (ops.foldl applySparseOp s).get k = (ops.foldl specStep m) k by
    refine h ops (SparseSet.new T) (fun _ => none) (SparseSet.Inv.new T) ?_
    intro k
    simp [SparseSet.get, SparseSet.get_idx, SparseSet.new, SparseSet.capacity]
  intro ops
  induction ops with
  | nil => intro s m hInv hm; exact ⟨hInv, hm⟩
  | cons op rest ih =>
    intro s m hInv hm
    simp only [List.foldl_cons]
    cases op with
    | insertWithOp k v =>
      refine ih _ _ (SparseSet.inv_insert_with hInv k v) ?_
      intro q
      simp only [applySparseOp, specStep]
      by_cases hq : q = k
      · subst hq
        rw [if_pos rfl]
        exact SparseSet.get_insert_with_self hInv q v
      · rw [if_neg hq]
        rw [SparseSet.get_insert_with_ne hInv v hq]
        exact hm q
    | removeOp k =>
      refine ih _ _ (SparseSet.inv_remove hInv k) ?_
      intro q
      simp only [applySparseOp, specStep]
      by_cases hq : q = k
      · subst hq
        rw [if_pos rfl]
        exact SparseSet.get_remove_self hInv q
      · rw [if_neg hq]
        rw [SparseSet.get_remove_ne hInv hq]
        exact hm q

/-- The two failure kinds of `reserveMach` are distinct and both leave the
set unchanged; which kind is produced is determined by the (wrapped)
capacity computation and the allocation outcome. -/
theorem reserveMach_failure_behaviour (s : SparseSet T) (a : Nat) (ok : Bool) :
    (∀ e, (s.reserveMach a ok).1 = Except.error e → (s.reserveMach a ok).2 = s) ∧
    ((s.reserveMach a ok).1 = Except.error TryReserveError.capacityOverflow ↔
      ¬ ((a + s.capacity) % USIZE_MOD < ISIZE_MAX)) ∧
    ((s.reserveMach a ok).1 = Except.error TryReserveError.allocError ↔
      ((a + s.capacity) % USIZE_MOD < ISIZE_MAX ∧ ok = false)) := by
  unfold SparseSet.reserveMach
  by_cases h1 : (a + s.capacity) % USIZE_MOD < ISIZE_MAX
  · cases ok with
    | true => simp [h1]
    | false => simp [h1]
  · simp [h1]

/-! ## Claim theorems for the storage primitive -/

/-- **C4.**  For every finite sequence of `insert_with(k, v)` and `remove(k)`
operations applied to a `SparseSet` created empty, `get(k)` returns the value
most recently inserted for key `k`, or nothing if `k` was never inserted or
was last removed, and `len()` equals the number of currently-live keys. -/
theorem sparse_ops_get_most_recent_and_len_live {T : Type}
    (ops : List (SparseOp T)) (k : Nat) :
    (runSparseOps ops).get k = specMapOf ops k ∧
      (runSparseOps ops).len = SparseSet.liveCount (runSparseOps ops) :=
  ⟨(runSparseOps_correct ops).2 k,
    SparseSet.len_eq_liveCount (runSparseOps_correct ops).1⟩

/-- **C5.**  The claim says every public operation (including `clear`)
preserves `dense.length == data.length ≤ sparse.length`.  `clear` only
clears `dense`, so after `insert_with(0, 42)` then `clear()` the parallel
arrays have lengths 0 and 1 and the invariant fails; worse, re-inserting key
0 afterwards appends to the stale `data` array and `get(0)` then returns the
*old* value 42 instead of the newly inserted 7. -/
theorem clear_breaks_invariant :
    ((((SparseSet.new Nat).insert_with 0 42).2.clear)).dense.length = 0 ∧
    ((((SparseSet.new Nat).insert_with 0 42).2.clear)).data.length = 1 ∧
    ¬ SparseSet.Inv ((((SparseSet.new Nat).insert_with 0 42).2.clear)) ∧
    (((((SparseSet.new Nat).insert_with 0 42).2.clear).insert_with 0 7).2).get 0 =
      some 42 := by
  refine ⟨by decide, by decide, ?_, by decide⟩
  intro h
  exact absurd h.len_data (by decide)

/-- **C6 (counterexample).**  After `insert_with(0, 42)` then `remove(0)`
the set is empty with capacity 1 and `sparse[0] = EMPTY_KEY`.  The claim
says the auto-key insertion assigns the first EMPTY slot (key 0) whenever
one exists, but `next_key` takes the `is_empty` early return and yields 1. -/
theorem next_key_skips_empty_slot_when_set_empty :
    (((((SparseSet.new Nat).insert_with 0 42).2).remove 0).2).sparse = [EMPTY_KEY] ∧
    claimedNextKey (((((SparseSet.new Nat).insert_with 0 42).2).remove 0).2) = 0 ∧
    (((((SparseSet.new Nat).insert_with 0 42).2).remove 0).2).next_key = 1 := by
  decide

/-- **C6 (amended).**  When the set is non-empty, the auto-generated key is
the first EMPTY sparse slot if one exists and otherwise one past the
occupied range; when the set is empty the `is_empty` early return always
yields one past the capacity (even if EMPTY slots exist).  In all cases the
assigned key is never currently live.  (`s.len ≤ EMPTY_KEY` always holds on
a real machine, where lengths are below `usize::MAX`.) -/
theorem next_key_amended {T : Type} (s : SparseSet T)
    (hlen : s.len ≤ EMPTY_KEY) :
    (s.is_empty = true → s.next_key = s.capacity) ∧
    (s.is_empty = false → s.next_key = claimedNextKey s) ∧
    s.contains s.next_key = false := by
  have hcapnone : s.get_idx s.capacity = none := by
    unfold SparseSet.get_idx
    rw [if_pos (le_refl _)]
  refine ⟨?_, ?_, ?_⟩
  · intro he
    unfold SparseSet.next_key
    rw [if_pos he]
  · intro he
    unfold SparseSet.next_key claimedNextKey
    rw [if_neg (by simp [he])]
  · by_cases he : s.is_empty = true
    · unfold SparseSet.next_key
      rw [if_pos he]
      simp [SparseSet.contains, hcapnone]
    · unfold SparseSet.next_key
      rw [if_neg he]
      cases hf : s.sparse.findIdx? (fun v => v == EMPTY_KEY) with
      | none => simp [SparseSet.contains, hcapnone]
      | some i =>
        rw [List.findIdx?_eq_some_iff_getElem] at hf
        obtain ⟨hlt, hp, -⟩ := hf
        have hsp : s.sparse.getD i 0 = EMPTY_KEY := by
          rw [List.getD_eq_getElem _ _ hlt]
          simpa using hp
        have : s.get_idx i = none := by
          unfold SparseSet.get_idx
          rw [if_neg (by simp only [SparseSet.capacity]; omega), hsp]
          rw [if_neg (by omega)]
        simp [SparseSet.contains, this]

theorem next_key_amended_witness :
    ((((SparseSet.new Nat).insert_with 0 42).2).is_empty = true →
      (((SparseSet.new Nat).insert_with 0 42).2).next_key =
        (((SparseSet.new Nat).insert_with 0 42).2).capacity) ∧
    ((((SparseSet.new Nat).insert_with 0 42).2).is_empty = false →
      (((SparseSet.new Nat).insert_with 0 42).2).next_key =
        claimedNextKey (((SparseSet.new Nat).insert_with 0 42).2)) ∧
    (((SparseSet.new Nat).insert_with 0 42).2).contains
      (((SparseSet.new Nat).insert_with 0 42).2).next_key = false :=
  next_key_amended (((SparseSet.new Nat).insert_with 0 42).2) (by decide)

/-- **C7.**  The overflow guard of `reserve` is written `additional +
capacity < isize::MAX`, but the addition itself is unchecked `usize`
arithmetic: on a set of capacity 1, `reserve(usize::MAX)` wraps to a
`new_capacity` of 0, passes the guard, truncates `sparse` to length 0 and
returns `Ok(0)` — even though `additional + capacity` is not below
`isize::MAX`, where the claim requires the capacity-overflow outcome with no
state change.  (In a debug build the addition panics instead; either way the
claimed outcome is not produced.) -/
theorem reserve_wrapping_add_defeats_overflow_guard :
    ((((SparseSet.new Nat).insert_with 0 42).2).reserveMach (2 ^ 64 - 1) true).1 =
      Except.ok 0 ∧
    (((((SparseSet.new Nat).insert_with 0 42).2).reserveMach (2 ^ 64 - 1) true).2).sparse
      = [] ∧
    ¬ ((2 ^ 64 - 1) + (((SparseSet.new Nat).insert_with 0 42).2).capacity <
        ISIZE_MAX) :=
  ⟨rfl, rfl, by decide⟩

theorem canonSet_kv_pairs (done : List N) (pad : Nat) :
    (canonSet done pad).kv_pairs = (List.range done.length).zip done := rfl

theorem getD_range {i n : Nat} (h : i < n) : (List.range n).getD i 0 = i := by
  rw [List.getD_eq_getElem _ _ (by simpa using h)]
  simp

theorem canon_next_key (done : List N) (pad : Nat) (h : done.length ≤ EMPTY_KEY)
    (hp : done.length = 0 → pad = 0) :
    (canonSet done pad).next_key = done.length := by
  have hrange : (List.range done.length).findIdx? (fun v => v == EMPTY_KEY) = none := by
    rw [List.findIdx?_eq_none_iff]
    intro x hx
    rw [List.mem_range] at hx
    simp only [beq_eq_false_iff_ne, ne_eq]
    omega
  unfold SparseSet.next_key
  by_cases hn : done.length = 0
  · rw [if_pos (by simp [SparseSet.is_empty, SparseSet.len, canonSet, hn])]
    simp [SparseSet.capacity, canonSet, hn, hp hn]
  · rw [if_neg (by simp [SparseSet.is_empty, SparseSet.len, canonSet, hn])]
    have hsp : (canonSet done pad).sparse =
        List.range done.length ++ List.replicate pad EMPTY_KEY := rfl
    rw [hsp, List.findIdx?_append, hrange, List.findIdx?_replicate]
    rcases Nat.eq_zero_or_pos pad with hpad | hpad
    · simp [hpad, SparseSet.capacity, canonSet]
    · rw [if_pos ⟨hpad, by simp⟩]
      simp

theorem canon_get_idx_ge (done : List N) (pad : Nat) {k : Nat}
    (hk : done.length ≤ k) (h : done.length ≤ EMPTY_KEY) :
    (canonSet done pad).get_idx k = none := by
  unfold SparseSet.get_idx
  have hcap : (canonSet done pad).capacity = done.length + pad := by
    simp [SparseSet.capacity, canonSet]
  by_cases hge : k ≥ (canonSet done pad).capacity
  · rw [if_pos hge]
  · rw [if_neg hge]
    have hklt : k - done.length < pad := by
      rw [hcap] at hge
      omega
    have hsp : (canonSet done pad).sparse.getD k 0 = EMPTY_KEY := by
      show (List.range done.length ++ List.replicate pad EMPTY_KEY).getD k 0 = _
      rw [SparseSet.getD_append_right (by simpa using hk)]
      simp only [List.length_range]
      exact SparseSet.getD_replicate' hklt
    rw [hsp]
    have hlen : (canonSet done pad).len = done.length := by
      simp [SparseSet.len, canonSet]
    rw [hlen, if_neg (by omega)]

theorem canon_insert (done : List N) (pad : Nat) (v : N)
    (h : done.length ≤ EMPTY_KEY) (hp : done.length = 0 → pad = 0) :
    ∃ pad2, ((canonSet done pad).insert v).2 = canonSet (done ++ [v]) pad2 := by
  obtain ⟨m, hm⟩ := SparseSet.grow_sparse (canonSet done pad) done.length
  have hG : (canonSet done pad).grow done.length = canonSet done (pad + m) := by
    have h2 := SparseSet.grow_dense (canonSet done pad) done.length
    have h3 := SparseSet.grow_data (canonSet done pad) done.length
    have h1 : ((canonSet done pad).grow done.length).sparse =
        List.range done.length ++ List.replicate (pad + m) EMPTY_KEY := by
      rw [hm]
      show (List.range done.length ++ List.replicate pad EMPTY_KEY) ++
        List.replicate m EMPTY_KEY = _
      rw [List.append_assoc, ← List.replicate_add]
    cases hE : (canonSet done pad).grow done.length with
    | mk sp de da =>
      rw [hE] at h1 h2 h3
      simp only at h1 h2 h3
      rw [h1, h2, h3]
      rfl
  have hlt := SparseSet.grow_lt (canonSet done pad) done.length
  rw [hG] at hlt
  have hpadG : 0 < pad + m := by
    simp only [SparseSet.capacity, canonSet, List.length_append, List.length_range,
      List.length_replicate] at hlt
    omega
  refine ⟨pad + m - 1, ?_⟩
  show ((canonSet done pad).insert_with ((canonSet done pad).next_key) v).2 = _
  rw [canon_next_key done pad h hp]
  unfold SparseSet.insert_with
  rw [hG, canon_get_idx_ge done (pad + m) (le_refl _) h]
  show SparseSet.appendFresh (canonSet done (pad + m)) done.length v = _
  have hlen : (canonSet done (pad + m)).len = done.length := by
    simp [SparseSet.len, canonSet]
  have hrep : List.replicate (pad + m) EMPTY_KEY =
      EMPTY_KEY :: List.replicate (pad + m - 1) EMPTY_KEY := by
    cases hpm : pad + m with
    | zero => omega
    | succ q => simp [List.replicate_succ]
  unfold SparseSet.appendFresh
  rw [hlen]
  simp only [canonSet, SparseSet.mk.injEq, List.length_append, List.length_cons,
    List.length_nil, Nat.zero_add]
  refine ⟨?_, ?_, trivial⟩
  · rw [List.set_append_right _ _ (by simp), hrep]
    simp only [List.length_range, Nat.sub_self, List.set_cons_zero]
    rw [show done.length :: List.replicate (pad + m - 1) EMPTY_KEY =
      [done.length] ++ List.replicate (pad + m - 1) EMPTY_KEY from rfl]
    rw [← List.append_assoc, ← List.range_succ]
  · rw [← List.range_succ]

theorem graphOfList_canon (ns : List N) (h : ns.length ≤ EMPTY_KEY) :
    ∃ pad, (graphOfList ns).nodes = canonSet ns pad := by
  suffices hgen : ∀ (rest done : List N) (pad : Nat),
      done.length + rest.length ≤ EMPTY_KEY → (done.length = 0 → pad = 0) →
      ∃ pad2, (rest.foldl ConflictGraph.insertNode ⟨canonSet done pad⟩ :
        ConflictGraph N).nodes = canonSet (done ++ rest) pad2 by
    obtain ⟨pad2, hp2⟩ := hgen ns [] 0 (by simpa using h) (fun _ => rfl)
    exact ⟨pad2, by simpa using hp2⟩
  intro rest
  induction rest with
  | nil =>
    intro done pad hlen hp
    exact ⟨pad, by simp⟩
  | cons v rest ih =>
    intro done pad hlen hp
    obtain ⟨padm, hpadm⟩ := canon_insert done pad v (by simp at hlen; omega) hp
    simp only [List.foldl_cons]
    have hstep : ConflictGraph.insertNode ⟨canonSet done pad⟩ v =
        ⟨canonSet (done ++ [v]) padm⟩ := by
      unfold ConflictGraph.insertNode
      rw [hpadm]
    rw [hstep]
    obtain ⟨pad2, hp2⟩ := ih (done ++ [v]) padm
      (by simp at hlen ⊢; omega) (by simp)
    refine ⟨pad2, ?_⟩
    rw [hp2]
    simp

/-- After inserting `ns` into a fresh graph, the kv-pair view is
`[(0, ns[0]), (1, ns[1]), …]`. -/
theorem cliquesKvs_eq (ns : List N) (h : ns.length ≤ EMPTY_KEY) :
    cliquesKvs ns = (List.range ns.length).zip ns := by
  obtain ⟨pad, hpad⟩ := graphOfList_canon ns h
  unfold cliquesKvs
  rw [hpad, canonSet_kv_pairs]

theorem cliquesKvs_keys (ns : List N) (h : ns.length ≤ EMPTY_KEY) :
    (cliquesKvs ns).map Prod.fst = List.range ns.length := by
  rw [cliquesKvs_eq ns h]
  exact List.map_fst_zip _ _ (by simp)

/-! ### The color-selection loop picks the least free color -/

theorem range_find?_iff {m c : Nat} {p : Nat → Bool} :
    (List.range m).find? p = some c ↔
      (c < m ∧ p c = true ∧ ∀ b, b < c → p b = false) := by
  induction m generalizing c with
  | zero => simp
  | succ m ih =>
    rw [List.range_succ, List.find?_append]
    cases hfm : (List.range m).find? p with
    | some d =>
      obtain ⟨hd1, hd2, hd3⟩ := ih.mp hfm
      simp only [Option.or_some]
      constructor
      · intro h
        injection h with h
        subst h
        exact ⟨by omega, hd2, hd3⟩
      · rintro ⟨hc1, hc2, hc3⟩
        have hcd : c = d := by
          rcases Nat.lt_trichotomy c d with hlt | heq | hgt
          · exact absurd hc2 (by rw [hd3 c hlt]; simp)
          · exact heq
          · exact absurd hd2 (by rw [hc3 d hgt]; simp)
        rw [hcd]
    | none =>
      have hall := List.find?_eq_none.mp hfm
      simp only [Option.none_or, List.find?_singleton]
      by_cases hpm : p m = true
      · rw [if_pos hpm]
        constructor
        · intro h
          injection h with h
          subst h
          refine ⟨by omega, hpm, ?_⟩
          intro b hb
          have := hall b (by rw [List.mem_range]; exact hb)
          simpa using this
        · rintro ⟨hc1, hc2, -⟩
          have : ¬ c < m := by
            intro hlt
            have := hall c (by rw [List.mem_range]; exact hlt)
            simp [hc2] at this
          have : c = m := by omega
          rw [this]
      · rw [if_neg hpm]
        constructor
        · intro h
          cases h
        · rintro ⟨hc1, hc2, -⟩
          by_cases hcm : c < m
          · have := hall c (by rw [List.mem_range]; exact hcm)
            simp [hc2] at this
          · have : c = m := by omega
            rw [this] at hc2
            exact absurd hc2 hpm

/-- Pigeonhole: some color in `[0, card]` is not in `forbidden`. -/
theorem exists_fresh (f : Multiset Nat) : ∃ c, c ≤ f.card ∧ c ∉ f := by
  by_contra h
  push_neg at h
  have hsub : Finset.range (f.card + 1) ⊆ f.toFinset := by
    intro x hx
    rw [Finset.mem_range] at hx
    rw [Multiset.mem_toFinset]
    exact h x (by omega)
  have h1 : f.card + 1 ≤ f.toFinset.card := by
    simpa using Finset.card_le_card hsub
  have h2 : f.toFinset.card ≤ f.card := Multiset.toFinset_card_le f
  omega

theorem leastFresh_spec (f : Multiset Nat) :
    leastFresh f ∉ f ∧ (∀ b, b < leastFresh f → b ∈ f) ∧ leastFresh f ≤ f.card := by
  obtain ⟨c, hc1, hc2⟩ := exists_fresh f
  unfold leastFresh
  cases hfind : (List.range (f.card + 1)).find? (fun c => decide (c ∉ f)) with
  | none =>
    exfalso
    have := List.find?_eq_none.mp hfind c (by rw [List.mem_range]; omega)
    simp [hc2] at this
  | some d =>
    obtain ⟨hd1, hd2, hd3⟩ := range_find?_iff.mp hfind
    simp only [Option.getD_some]
    refine ⟨by simpa using hd2, ?_, ?_⟩
    · intro b hb
      have := hd3 b hb
      simpa using this
    · by_contra hgt
      push_neg at hgt
      have hcd : c < d := by omega
      have := hd3 c hcd
      simp [hc2] at this

theorem chooseColorAux_eq (f : Multiset Nat) :
    ∀ (fuel m : Nat), 1 ≤ fuel → leastFresh f + 1 < m + fuel →
      chooseColorAux f fuel m = some (leastFresh f, max m (leastFresh f + 1)) := by
  intro fuel
  induction fuel with
  | zero => intro m h0 _; omega
  | succ fl ih =>
    intro m h1 h2
    obtain ⟨hmem, hleast, hcard⟩ := leastFresh_spec f
    unfold chooseColorAux
    by_cases hLm : leastFresh f < m
    · have hsome : (List.range m).find? (fun c => decide (c ∉ f)) =
          some (leastFresh f) := by
        rw [range_find?_iff]
        refine ⟨hLm, by simpa using hmem, ?_⟩
        intro b hb
        simpa using hleast b hb
      rw [hsome]
      rw [Nat.max_eq_left (by omega)]
    · have hnone : (List.range m).find? (fun c => decide (c ∉ f)) = none := by
        rw [List.find?_eq_none]
        intro x hx
        rw [List.mem_range] at hx
        have : x ∈ f := hleast x (by omega)
        simp [this]
      rw [hnone]
      rw [ih (m + 1) (by omega) (by omega)]
      rw [Nat.max_eq_right (by omega), Nat.max_eq_right (by omega)]

theorem chooseColor_eq (f : Multiset Nat) (m : Nat) :
    chooseColor f m = (leastFresh f, max m (leastFresh f + 1)) := by
  unfold chooseColor
  rw [chooseColorAux_eq f (f.card + 2) m (by omega)
    (by have := (leastFresh_spec f).2.2; omega)]
  rfl

/-! ### The candidate loop always selects the first uncolored node

Every one of the four `break` conditions fires for the first uncolored node
reached while the running candidate is still `Candidate::default()`: either
it is the last uncolored node, or it has no edges, or it has a colored
neighbour (beating the default's zero), or all its neighbours are uncolored
(tying the default's zero forbidden colors with more uncolored
neighbours). -/

theorem mkCandidate_cards (colors : Nat → Nat) (k : Nat) (edges : Finset Nat) :
    (mkCandidate colors k edges).uncolored_adjacent +
      (mkCandidate colors k edges).forbidden_colors.card = edges.card := by
  unfold mkCandidate
  simp only [Multiset.card_map]
  exact Finset.filter_card_add_filter_neg_card_eq_card (fun e => colors e = UNCOLORED)

theorem candLoop_head_uncolored {N : Type} (colors : Nat → Nat)
    (edges : Nat → Finset Nat) (uc : Nat) (pre : List (Nat × N)) (k : Nat) (n : N)
    (rest : List (Nat × N)) (hpre : ∀ p ∈ pre, colors p.1 ≠ UNCOLORED)
    (hk : colors k = UNCOLORED) :
    candLoop colors edges uc (pre ++ (k, n) :: rest) defaultCandidate =
      mkCandidate colors k (edges k) := by
  induction pre with
  | nil =>
    simp only [List.nil_append]
    unfold candLoop
    rw [if_pos hk]
    by_cases h1 : uc = 1
    · rw [if_pos h1]
    · rw [if_neg h1]
      by_cases h2 : edges k = ∅
      · rw [if_pos h2]
      · rw [if_neg h2]
        have hcards := mkCandidate_cards colors k (edges k)
        have hpos : 0 < (edges k).card :=
          Finset.card_pos.mpr (Finset.nonempty_iff_ne_empty.mpr h2)
        have hdf : defaultCandidate.forbidden_colors.card = 0 := rfl
        have hdu : defaultCandidate.uncolored_adjacent = 0 := rfl
        by_cases h3 : (mkCandidate colors k (edges k)).forbidden_colors.card >
            defaultCandidate.forbidden_colors.card
        · rw [if_pos h3]
        · rw [if_neg h3, if_pos ?_]
          rw [hdf] at h3 ⊢
          rw [hdu]
          omega
  | cons p pre ih =>
    simp only [List.cons_append]
    unfold candLoop
    rw [if_neg ?side]
    case side => exact hpre p (by simp)
    exact ih (fun q hq => hpre q (by simp [hq]))

theorem lookupNode_of_mem {N : Type} {kvs : List (Nat × N)} {k : Nat} {n : N}
    (h : (k, n) ∈ kvs) : ∃ q, lookupNode kvs k = some q := by
  unfold lookupNode
  cases hfind : kvs.find? (fun p => p.1 == k) with
  | none =>
    exfalso
    have := List.find?_eq_none.mp hfind (k, n) h
    simp at this
  | some q => exact ⟨q.2, rfl⟩

theorem colorPasses_eq_greedy {N : Type} (kvs : List (Nat × N))
    (edges : Nat → Finset Nat) (hE : ∀ k, (edges k).card < UNCOLORED)
    (hnodup : (kvs.map Prod.fst).Nodup) :
    ∀ (todo done : List (Nat × N)) (colors : Nat → Nat) (m : Nat),
      kvs = done ++ todo →
      (∀ p ∈ done, colors p.1 ≠ UNCOLORED) →
      (∀ p ∈ todo, colors p.1 = UNCOLORED) →
      ∃ M, colorPasses kvs edges todo.length colors m =
        .ok (greedy edges todo colors, M) := by
  intro todo
  induction todo with
  | nil =>
    intro done colors m hsplit hdone htodo
    exact ⟨m, rfl⟩
  | cons hd todo ih =>
    obtain ⟨k, n⟩ := hd
    intro done colors m hsplit hdone htodo
    have hk : colors k = UNCOLORED := htodo (k, n) (by simp)
    have hcand : candLoop colors edges (todo.length + 1) kvs defaultCandidate =
        mkCandidate colors k (edges k) := by
      rw [hsplit]
      exact candLoop_head_uncolored colors edges _ done k n todo hdone hk
    have hmem : (k, n) ∈ kvs := by rw [hsplit]; simp
    obtain ⟨q, hq⟩ := lookupNode_of_mem hmem
    have hkey : (mkCandidate colors k (edges k)).graph_key = k := rfl
    -- key facts about the assigned color
    have hforb : (mkCandidate colors k (edges k)).forbidden_colors =
        ((edges k).val.filter (fun e => ¬ colors e = UNCOLORED)).map colors := rfl
    have hcardle : (((edges k).val.filter (fun e => ¬ colors e = UNCOLORED)).map
        colors).card ≤ (edges k).card := by
      rw [Multiset.card_map]
      exact Multiset.card_le_card (Multiset.filter_le _ _)
    have hfresh_ne : leastFresh (((edges k).val.filter
        (fun e => ¬ colors e = UNCOLORED)).map colors) ≠ UNCOLORED := by
      have h1 := (leastFresh_spec (((edges k).val.filter
        (fun e => ¬ colors e = UNCOLORED)).map colors)).2.2
      have h2 := hE k
      omega
    -- nodup facts: k appears once in the keys
    have hnodup2 : (done.map Prod.fst ++ k :: todo.map Prod.fst).Nodup := by
      have := hnodup
      rw [hsplit] at this
      simpa using this
    have hknotdone : k ∉ done.map Prod.fst := by
      rw [List.nodup_middle] at hnodup2
      have := hnodup2.of_cons
      intro hmem2
      exact (List.nodup_cons.mp hnodup2).1 (by simp [hmem2])
    have hknottodo : k ∉ todo.map Prod.fst := by
      rw [List.nodup_middle] at hnodup2
      intro hmem2
      exact (List.nodup_cons.mp hnodup2).1 (by simp [hmem2])
    show ∃ M, colorPasses kvs edges (todo.length + 1) colors m = _
    unfold colorPasses
    rw [hcand, hkey, hq]
    rw [show (fun q => if q = k then
        (chooseColor (mkCandidate colors k (edges k)).forbidden_colors m).1
        else colors q) = (fun q => if q = k then
          leastFresh (((edges k).val.filter (fun e => ¬ colors e = UNCOLORED)).map
            colors) else colors q) from by
      funext q
      rw [chooseColor_eq, hforb]]
    refine ih (done ++ [(k, n)]) _ _ (by rw [hsplit]; simp) ?_ ?_
    · intro p hp
      rw [List.mem_append] at hp
      rcases hp with hp | hp
      · have hne : p.1 ≠ k := by
          intro he
          exact hknotdone (he ▸ List.mem_map_of_mem Prod.fst hp)
        rw [if_neg hne]
        exact hdone p hp
      · have : p = (k, n) := by simpa using hp
        rw [this]
        simp only [if_pos rfl]
        exact hfresh_ne
    · intro p hp
      have hne : p.1 ≠ k := by
        intro he
        exact hknottodo (he ▸ List.mem_map_of_mem Prod.fst hp)
      rw [if_neg hne]
      exact htodo p (by simp [hp])

theorem colorGraph_eq_greedy {N : Type} (kvs : List (Nat × N))
    (edges : Nat → Finset Nat) (hE : ∀ k, (edges k).card < UNCOLORED)
    (hnodup : (kvs.map Prod.fst).Nodup) :
    ∃ M, colorGraph kvs edges = .ok (greedy edges kvs (fun _ => UNCOLORED), M) :=
  colorPasses_eq_greedy kvs edges hE hnodup kvs [] (fun _ => UNCOLORED) 0 rfl
    (by intro p hp; cases hp) (fun _ _ => rfl)

/-! ### Properties of check and of the partition -/

theorem edgesFn_card_le {N : Type} (conflict : N → N → Bool) (kvs : List (Nat × N))
    (k : Nat) : (edgesFn conflict kvs k).card ≤ kvs.length := by
  unfold edgesFn
  cases lookupNode kvs k with
  | none => simp
  | some n =>
    unfold edgesOf
    calc ((kvs.filter (fun p => decide (p.1 ≠ k) && conflict n p.2)).map
          Prod.fst).toFinset.card
        ≤ ((kvs.filter (fun p => decide (p.1 ≠ k) && conflict n p.2)).map
          Prod.fst).length := List.toFinset_card_le _
      _ = (kvs.filter (fun p => decide (p.1 ≠ k) && conflict n p.2)).length := by
          rw [List.length_map]
      _ ≤ kvs.length := List.length_filter_le _ _

theorem checkPairErr_eq_none {N : Type} {conflict : N → N → Bool} {ci cj : Nat}
    {ni nj : N} (h : checkPairErr conflict ci cj ni nj = none) :
    ci ≠ UNCOLORED ∧ cj ≠ UNCOLORED ∧ (conflict ni nj = true → ci ≠ cj) := by
  unfold checkPairErr at h
  by_cases h1 : ci = UNCOLORED
  · rw [if_pos h1] at h; cases h
  · rw [if_neg h1] at h
    by_cases h2 : cj = UNCOLORED
    · rw [if_pos h2] at h; cases h
    · rw [if_neg h2] at h
      refine ⟨h1, h2, ?_⟩
      intro hc he
      rw [if_pos hc, if_pos he] at h
      cases h

theorem checkGraph_ok_pairs {N : Type} {conflict : N → N → Bool}
    {kvs : List (Nat × N)} {colors : Nat → Nat}
    (h : checkGraph conflict kvs colors = .ok ()) :
    ∀ p ∈ kvs, ∀ q ∈ kvs, p.1 ≠ q.1 →
      colors p.1 ≠ UNCOLORED ∧
        (conflict p.2 q.2 = true → colors p.1 ≠ colors q.1) := by
  unfold checkGraph at h
  cases hfs : kvs.findSome? (fun p =>
      kvs.findSome? (fun q =>
        if p.1 ≠ q.1 then checkPairErr conflict (colors p.1) (colors q.1) p.2 q.2
        else none)) with
  | some e => rw [hfs] at h; cases h
  | none =>
    intro p hp q hq hne
    have houter := List.findSome?_eq_none_iff.mp hfs p hp
    have hinner := List.findSome?_eq_none_iff.mp houter q hq
    rw [if_pos hne] at hinner
    obtain ⟨h1, -, h3⟩ := checkPairErr_eq_none hinner
    exact ⟨h1, h3⟩

/-- `greedy` never leaves a visited key uncolored (the assigned least-free
color is bounded by the neighbour count, so it can never be the
sentinel). -/
theorem greedy_ne_uncolored {N : Type} (edges : Nat → Finset Nat)
    (hE : ∀ k, (edges k).card < UNCOLORED) :
    ∀ (todo : List (Nat × N)) (colors : Nat → Nat) (q : Nat),
      (q ∈ todo.map Prod.fst ∨ colors q ≠ UNCOLORED) →
      greedy edges todo colors q ≠ UNCOLORED := by
  intro todo
  induction todo with
  | nil =>
    intro colors q hq
    rcases hq with hq | hq
    · cases hq
    · exact hq
  | cons hd rest ih =>
    obtain ⟨k, n⟩ := hd
    intro colors q hq
    show greedy edges rest _ q ≠ UNCOLORED
    have hfresh : leastFresh (((edges k).val.filter
        (fun e => ¬ colors e = UNCOLORED)).map colors) ≠ UNCOLORED := by
      have h1 := (leastFresh_spec (((edges k).val.filter
        (fun e => ¬ colors e = UNCOLORED)).map colors)).2.2
      have h2 : (((edges k).val.filter (fun e => ¬ colors e = UNCOLORED)).map
          colors).card ≤ (edges k).card := by
        rw [Multiset.card_map]
        exact Multiset.card_le_card (Multiset.filter_le _ _)
      have h3 := hE k
      omega
    apply ih
    rcases hq with hq | hq
    · simp only [List.map_cons, List.mem_cons] at hq
      rcases hq with hq | hq
      · right
        rw [hq]
        simp only [if_pos rfl]
        exact hfresh
      · left
        exact hq
    · right
      by_cases hqk : q = k
      · rw [hqk]
        simp only [if_pos rfl]
        exact hfresh
      · rw [if_neg hqk]
        exact hq

/-- Collecting the color buckets in any duplicate-free order covering the
occurring colors is a permutation of the node list. -/
theorem partition_flatten_perm {N : Type} (colors : Nat → Nat) :
    ∀ (σ : List Nat) (kvs : List (Nat × N)), σ.Nodup →
      (∀ p ∈ kvs, colors p.1 ∈ σ) →
      (partitionGroups kvs colors σ).flatten.Perm (kvs.map Prod.snd) := by
  intro σ
  induction σ with
  | nil =>
    intro kvs hnodup hcov
    cases kvs with
    | nil => simp [partitionGroups]
    | cons p rest => exact absurd (hcov p (by simp)) (by simp)
  | cons c σ ih =>
    intro kvs hnodup hcov
    have hstep : σ.map (bucket kvs colors) =
        σ.map (bucket (kvs.filter (fun p => ¬ colors p.1 = c)) colors) := by
      apply List.map_congr_left
      intro c2 hc2
      have hne : c2 ≠ c := by
        intro he
        exact (List.nodup_cons.mp hnodup).1 (he ▸ hc2)
      unfold bucket
      congr 1
      rw [List.filter_filter]
      apply List.filter_congr
      intro p hp
      by_cases hpc : colors p.1 = c2
      · simp [hpc, hne]
      · simp [hpc]
    unfold partitionGroups
    simp only [List.map_cons, List.flatten_cons]
    rw [hstep]
    have hih := ih (kvs.filter (fun p => ¬ colors p.1 = c))
      (List.nodup_cons.mp hnodup).2 ?cov
    case cov =>
      intro p hp
      have hmem := List.mem_of_mem_filter hp
      have hprop := List.of_mem_filter hp
      have := hcov p hmem
      simp only [List.mem_cons] at this
      rcases this with he | he
      · exfalso
        simp [he] at hprop
      · exact he
    refine ((hih.append_left (bucket kvs colors c)).trans ?_)
    unfold bucket
    rw [← List.map_append]
    refine List.Perm.map Prod.snd ?_
    have := List.filter_append_perm (fun p => colors p.1 = c) kvs
    simpa using this

/-! ### Destructuring a successful `cliques` run -/

theorem cliquesModel_ok_parts {N : Type} {conflict : N → N → Bool} {σ : List Nat}
    {ns : List N} {gs : List (List N)} (h : cliquesModel conflict σ ns = .ok gs) :
    (∃ M, colorGraph (cliquesKvs ns) (edgesFn conflict (cliquesKvs ns)) =
      .ok (cliquesColors conflict ns, M)) ∧
    checkGraph conflict (cliquesKvs ns) (cliquesColors conflict ns) = .ok () ∧
    gs = partitionGroups (cliquesKvs ns) (cliquesColors conflict ns) σ := by
  unfold cliquesModel at h
  cases hcg : colorGraph (cliquesKvs ns) (edgesFn conflict (cliquesKvs ns)) with
  | error e =>
    rw [hcg] at h
    simp only [] at h
    simp at h
  | ok pr =>
    obtain ⟨colors, M⟩ := pr
    rw [hcg] at h
    simp only [] at h
    have hcolors : cliquesColors conflict ns = colors := by
      unfold cliquesColors
      rw [hcg]
    cases hck : checkGraph conflict (cliquesKvs ns) colors with
    | error e =>
      rw [hck] at h
      simp only [] at h
      simp at h
    | ok u =>
      cases u
      rw [hck] at h
      simp only [] at h
      rw [hcolors]
      injection h with h
      exact ⟨⟨M, rfl⟩, hck, h.symm⟩

theorem mem_cliquesKvs {N : Type} (ns : List N) (h : ns.length ≤ EMPTY_KEY)
    {i : Nat} (hi : i < ns.length) : (i, ns.get ⟨i, hi⟩) ∈ cliquesKvs ns := by
  rw [cliquesKvs_eq ns h]
  have hlen : i < ((List.range ns.length).zip ns).length := by
    rw [List.length_zip, List.length_range]
    omega
  have : ((List.range ns.length).zip ns)[i] = (i, ns.get ⟨i, hi⟩) := by
    rw [List.getElem_zip]
    simp [List.get_eq_getElem]
  rw [← this]
  exact List.getElem_mem hlen

theorem UNCOLORED_eq_EMPTY_KEY : EMPTY_KEY = UNCOLORED := rfl

/-- The (canonical, insert-only) node stores have the edge-count bound and
nodup keys needed by the greedy characterization. -/
theorem cliques_colorGraph_greedy {N : Type} (conflict : N → N → Bool) (ns : List N)
    (hn : ns.length < UNCOLORED) :
    ∃ M, colorGraph (cliquesKvs ns) (edgesFn conflict (cliquesKvs ns)) =
      .ok (greedy (edgesFn conflict (cliquesKvs ns)) (cliquesKvs ns)
        (fun _ => UNCOLORED), M) := by
  have hle : ns.length ≤ EMPTY_KEY := by
    have he := UNCOLORED_eq_EMPTY_KEY
    omega
  apply colorGraph_eq_greedy
  · intro k
    have h1 := edgesFn_card_le conflict (cliquesKvs ns) k
    have h2 : (cliquesKvs ns).length = ns.length := by
      rw [cliquesKvs_eq ns hle, List.length_zip, List.length_range]
      omega
    omega
  · rw [cliquesKvs_keys ns hle]
    exact List.nodup_range ns.length

/-- **C1.**  When `cliques()` succeeds, every node carries a color other
than the UNCOLORED sentinel, any two distinct nodes whose conflict
predicate holds carry different colors, and consequently any two distinct
nodes of one returned group are conflict-free.  (`ns.length < UNCOLORED`
always holds on a real machine, where node counts are below
`usize::MAX`.) -/
theorem cliques_proper_coloring_and_groups {N : Type} (conflict : N → N → Bool)
    (σ : List Nat) (ns : List N) (gs : List (List N)) (hn : ns.length < UNCOLORED)
    (h : cliquesModel conflict σ ns = .ok gs) :
    (∀ i, (hi : i < ns.length) → cliquesColors conflict ns i ≠ UNCOLORED) ∧
    (∀ i j, (hi : i < ns.length) → (hj : j < ns.length) → i ≠ j →
      conflict (ns.get ⟨i, hi⟩) (ns.get ⟨j, hj⟩) = true →
      cliquesColors conflict ns i ≠ cliquesColors conflict ns j) ∧
    (∀ g ∈ gs, ∀ i j, (hi : i < g.length) → (hj : j < g.length) → i ≠ j →
      conflict (g.get ⟨i, hi⟩) (g.get ⟨j, hj⟩) = false) := by
  have hle : ns.length ≤ EMPTY_KEY := by
    have he := UNCOLORED_eq_EMPTY_KEY
    omega
  obtain ⟨⟨M, hcg⟩, hck, hgs⟩ := cliquesModel_ok_parts h
  obtain ⟨M2, hcg2⟩ := cliques_colorGraph_greedy conflict ns hn
  have hcolors : cliquesColors conflict ns =
      greedy (edgesFn conflict (cliquesKvs ns)) (cliquesKvs ns)
        (fun _ => UNCOLORED) := by
    rw [hcg] at hcg2
    injection hcg2 with hx
    exact congrArg Prod.fst hx
  have hEbound : ∀ k, (edgesFn conflict (cliquesKvs ns) k).card < UNCOLORED := by
    intro k
    have h1 := edgesFn_card_le conflict (cliquesKvs ns) k
    have h2 : (cliquesKvs ns).length = ns.length := by
      rw [cliquesKvs_eq ns hle, List.length_zip, List.length_range]
      omega
    omega
  have hcolored : ∀ i, (hi : i < ns.length) → cliquesColors conflict ns i ≠ UNCOLORED := by
    intro i hi
    rw [hcolors]
    apply greedy_ne_uncolored _ hEbound
    left
    rw [cliquesKvs_keys ns hle, List.mem_range]
    exact hi
  have hpairs := checkGraph_ok_pairs hck
  refine ⟨hcolored, ?_, ?_⟩
  · intro i j hi hj hne hconf
    exact (hpairs _ (mem_cliquesKvs ns hle hi) _ (mem_cliquesKvs ns hle hj) hne).2 hconf
  · intro g hg i j hi hj hne
    rw [hgs] at hg
    unfold partitionGroups at hg
    rw [List.mem_map] at hg
    obtain ⟨c, -, hgc⟩ := hg
    subst hgc
    unfold bucket at hi hj ⊢
    have hikvs := List.mem_of_mem_filter (List.get_mem
      ((cliquesKvs ns).filter (fun p => cliquesColors conflict ns p.1 = c))
      i (by simpa using hi))
    have hjkvs := List.mem_of_mem_filter (List.get_mem
      ((cliquesKvs ns).filter (fun p => cliquesColors conflict ns p.1 = c))
      j (by simpa using hj))
    have hifilter := List.of_mem_filter (List.get_mem
      ((cliquesKvs ns).filter (fun p => cliquesColors conflict ns p.1 = c))
      i (by simpa using hi))
    have hjfilter := List.of_mem_filter (List.get_mem
      ((cliquesKvs ns).filter (fun p => cliquesColors conflict ns p.1 = c))
      j (by simpa using hj))
    have hkeysnodup : (((cliquesKvs ns).filter
        (fun p => cliquesColors conflict ns p.1 = c)).map Prod.fst).Nodup := by
      have hsub : (((cliquesKvs ns).filter
          (fun p => cliquesColors conflict ns p.1 = c)).map Prod.fst).Sublist
          ((cliquesKvs ns).map Prod.fst) :=
        (List.filter_sublist _).map Prod.fst
      refine List.Nodup.sublist hsub ?_
      rw [cliquesKvs_keys ns hle]
      exact List.nodup_range ns.length
    have hkeyne : (((cliquesKvs ns).filter
        (fun p => cliquesColors conflict ns p.1 = c)).get ⟨i, by simpa using hi⟩).1 ≠
        (((cliquesKvs ns).filter
          (fun p => cliquesColors conflict ns p.1 = c)).get ⟨j, by simpa using hj⟩).1 := by
      intro he
      apply hne
      have hmi : i < (((cliquesKvs ns).filter
          (fun p => cliquesColors conflict ns p.1 = c)).map Prod.fst).length := by
        simpa using hi
      have hmj : j < (((cliquesKvs ns).filter
          (fun p => cliquesColors conflict ns p.1 = c)).map Prod.fst).length := by
        simpa using hj
      have hinj := List.nodup_iff_injective_get.mp hkeysnodup
      have hgi : (((cliquesKvs ns).filter
          (fun p => cliquesColors conflict ns p.1 = c)).map Prod.fst).get ⟨i, hmi⟩ =
          (((cliquesKvs ns).filter
            (fun p => cliquesColors conflict ns p.1 = c)).map Prod.fst).get ⟨j, hmj⟩ := by
        simp only [List.get_eq_getElem, List.getElem_map] at he ⊢
        exact he
      exact congrArg Fin.val (hinj hgi)
    cases hcf : conflict ((((cliquesKvs ns).filter
        (fun p => cliquesColors conflict ns p.1 = c)).map Prod.snd).get ⟨i, hi⟩)
        ((((cliquesKvs ns).filter
          (fun p => cliquesColors conflict ns p.1 = c)).map Prod.snd).get ⟨j, hj⟩) with
    | false => rfl
    | true =>
      exfalso
      have hci : cliquesColors conflict ns (((cliquesKvs ns).filter
          (fun p => cliquesColors conflict ns p.1 = c)).get ⟨i, by simpa using hi⟩).1
          = c := by simpa using hifilter
      have hcj : cliquesColors conflict ns (((cliquesKvs ns).filter
          (fun p => cliquesColors conflict ns p.1 = c)).get ⟨j, by simpa using hj⟩).1
          = c := by simpa using hjfilter
      have hsnd : (((cliquesKvs ns).filter
          (fun p => cliquesColors conflict ns p.1 = c)).map Prod.snd).get ⟨i, hi⟩ =
          (((cliquesKvs ns).filter
            (fun p => cliquesColors conflict ns p.1 = c)).get ⟨i, by simpa using hi⟩).2 := by
        simp [List.get_eq_getElem]
      have hsnd2 : (((cliquesKvs ns).filter
          (fun p => cliquesColors conflict ns p.1 = c)).map Prod.snd).get ⟨j, hj⟩ =
          (((cliquesKvs ns).filter
            (fun p => cliquesColors conflict ns p.1 = c)).get ⟨j, by simpa using hj⟩).2 := by
        simp [List.get_eq_getElem]
      rw [hsnd, hsnd2] at hcf
      have := (hpairs _ hikvs _ hjkvs hkeyne).2 hcf
      rw [hci, hcj] at this
      exact this rfl

/-- **C2.**  The multiset of payload nodes in the groups returned by
`cliques()` equals the multiset of inserted nodes: nothing is lost or
duplicated, and the total count is preserved.  (`σ` is the bucket-collection
order of the internal `HashMap`, which always enumerates exactly the used
colors.) -/
theorem cliques_partition_preserves_nodes {N : Type} (conflict : N → N → Bool)
    (σ : List Nat) (ns : List N) (gs : List (List N)) (hn : ns.length ≤ EMPTY_KEY)
    (hσ : AdmissibleOrder (cliquesKvs ns) (cliquesColors conflict ns) σ)
    (h : cliquesModel conflict σ ns = .ok gs) :
    gs.flatten.Perm ns ∧ (gs.flatten : Multiset N) = (ns : Multiset N) ∧
      gs.flatten.length = ns.length := by
  obtain ⟨-, -, hgs⟩ := cliquesModel_ok_parts h
  have hperm : gs.flatten.Perm ((cliquesKvs ns).map Prod.snd) := by
    rw [hgs]
    refine partition_flatten_perm _ σ _ hσ.1 ?_
    intro p hp
    exact hσ.2.2 (List.mem_map_of_mem _ hp)
  have hsnd : (cliquesKvs ns).map Prod.snd = ns := by
    rw [cliquesKvs_eq ns hn]
    exact List.map_snd_zip _ _ (by simp)
  rw [hsnd] at hperm
  exact ⟨hperm, Multiset.coe_eq_coe.mpr hperm, hperm.length_eq⟩

theorem cliques_partition_preserves_nodes_witness :
    ([[exSysA, exSysB], [exSysC]] : List (List WorldSystem)).flatten.Perm exSystems ∧
    (([[exSysA, exSysB], [exSysC]] : List (List WorldSystem)).flatten :
      Multiset WorldSystem) = (exSystems : Multiset WorldSystem) ∧
    ([[exSysA, exSysB], [exSysC]] : List (List WorldSystem)).flatten.length =
      exSystems.length :=
  cliques_partition_preserves_nodes conflict_cmp exOrder exSystems
    [[exSysA, exSysB], [exSysC]] (by decide)
    (by unfold AdmissibleOrder; decide) (by decide)

/-- **C3 (counterexample).**  On the three-system example, the first
coloring pass colors node 0.  In the second pass the code selects node 1
(it has no edges, so the `edges.is_empty` break fires on the first
uncolored node reached), even though node 2 has strictly more distinct
colors among its already-colored neighbours (one, namely node 0's color)
than node 1 (zero).  The claimed max-saturation selection would have to
pick node 2. -/
theorem color_selection_not_max_saturation :
    (candLoop exColors0 exEdges 3 exKvs defaultCandidate).graph_key = 0 ∧
    (candLoop exColors1 exEdges 2 exKvs defaultCandidate).graph_key = 1 ∧
    exColors1 1 = UNCOLORED ∧ exColors1 2 = UNCOLORED ∧
    distinctNeighborColors exEdges exColors1 1 <
      distinctNeighborColors exEdges exColors1 2 ∧
    ¬ IsClaimedChoice exKvs exEdges exColors1 1 := by
  decide

/-- **C3 (amended).**  Each iteration of the coloring pass selects the
*first* still-uncolored node in storage order (the saturation comparison
breaks out of the scan at the first node that beats the empty initial
candidate, which the first uncolored node always does) and assigns it the
smallest color not used by any already-colored neighbour, introducing a new
color exactly when every existing color is forbidden: the pass is the
sequential greedy coloring `greedy` of the store. -/
theorem cliques_coloring_amended {N : Type} (conflict : N → N → Bool) (ns : List N)
    (hn : ns.length < UNCOLORED) :
    ∃ M, colorGraph (cliquesKvs ns) (edgesFn conflict (cliquesKvs ns)) =
      .ok (greedy (edgesFn conflict (cliquesKvs ns)) (cliquesKvs ns)
        (fun _ => UNCOLORED), M) :=
  cliques_colorGraph_greedy conflict ns hn

theorem cliques_coloring_amended_witness :
    ∃ M, colorGraph (cliquesKvs exSystems) (edgesFn conflict_cmp (cliquesKvs exSystems))
      = .ok (greedy (edgesFn conflict_cmp (cliquesKvs exSystems))
        (cliquesKvs exSystems) (fun _ => UNCOLORED), M) :=
  cliques_coloring_amended conflict_cmp exSystems (by decide)

theorem cliques_proper_coloring_and_groups_witness :
    (∀ i, (hi : i < exSystems.length) →
      cliquesColors conflict_cmp exSystems i ≠ UNCOLORED) ∧
    (∀ i j, (hi : i < exSystems.length) → (hj : j < exSystems.length) → i ≠ j →
      conflict_cmp (exSystems.get ⟨i, hi⟩) (exSystems.get ⟨j, hj⟩) = true →
      cliquesColors conflict_cmp exSystems i ≠ cliquesColors conflict_cmp exSystems j) ∧
    (∀ g ∈ ([[exSysA, exSysB], [exSysC]] : List (List WorldSystem)),
      ∀ i j, (hi : i < g.length) → (hj : j < g.length) → i ≠ j →
      conflict_cmp (g.get ⟨i, hi⟩) (g.get ⟨j, hj⟩) = false) :=
  cliques_proper_coloring_and_groups conflict_cmp exOrder exSystems
    [[exSysA, exSysB], [exSysC]] (by decide) (by decide)

/-- **C9.**  Two runs of `resolve_system_tree` on the same registered
systems differ at most in the `HashMap` bucket order: whenever both succeed,
their partitions are equal as multisets of groups. -/
theorem resolve_partition_unique_up_to_order
    (systems : List WorldSystem) (σ₁ σ₂ : List Nat) (t₁ t₂ : List (List Nat))
    (h1 : AdmissibleOrder (cliquesKvs systems) (cliquesColors conflict_cmp systems) σ₁)
    (h2 : AdmissibleOrder (cliquesKvs systems) (cliquesColors conflict_cmp systems) σ₂)
    (e1 : resolveSystems σ₁ systems = .ok t₁)
    (e2 : resolveSystems σ₂ systems = .ok t₂) :
    (t₁ : Multiset (List Nat)) = (t₂ : Multiset (List Nat)) := by
  unfold resolveSystems at e1 e2
  cases hc1 : cliquesModel conflict_cmp σ₁ systems with
  | error e => rw [hc1] at e1; simp at e1
  | ok g1 =>
  cases hc2 : cliquesModel conflict_cmp σ₂ systems with
  | error e => rw [hc2] at e2; simp at e2
  | ok g2 =>
  rw [hc1] at e1
  rw [hc2] at e2
  simp only [] at e1 e2
  injection e1 with e1
  injection e2 with e2
  obtain ⟨-, -, hg1⟩ := cliquesModel_ok_parts hc1
  obtain ⟨-, -, hg2⟩ := cliquesModel_ok_parts hc2
  have hperm : σ₁.Perm σ₂ := by
    refine (List.perm_ext_iff_of_nodup h1.1 h2.1).mpr ?_
    intro a
    exact ⟨fun ha => h2.2.2 (h1.2.1 ha), fun ha => h1.2.2 (h2.2.1 ha)⟩
  have hgp : g1.Perm g2 := by
    rw [hg1, hg2]
    exact hperm.map _
  have hp : t₁.Perm t₂ := by
    rw [← e1, ← e2]
    exact hgp.map _
  exact Multiset.coe_eq_coe.mpr hp

theorem resolve_partition_unique_witness :
    (([[0, 1], [2]] : List (List Nat)) : Multiset (List Nat)) =
      (([[0, 1], [2]] : List (List Nat)) : Multiset (List Nat)) :=
  resolve_partition_unique_up_to_order exSystems exOrder exOrder
    [[0, 1], [2]] [[0, 1], [2]]
    (by unfold AdmissibleOrder; decide) (by unfold AdmissibleOrder; decide)
    (by decide) (by decide)

/-! ### Node lookup over the canonical store (for edge mutuality) -/

theorem lookupNode_zip_aux {N : Type} :
    ∀ (ns : List N) (off i : Nat),
      lookupNode ((List.range' off ns.length).zip ns) (off + i) = ns[i]? := by
  intro ns
  induction ns with
  | nil => intro off i; rfl
  | cons x xs ih =>
    intro off i
    rw [List.length_cons, List.range'_succ, List.zip_cons_cons]
    unfold lookupNode
    cases i with
    | zero =>
      have hp : ((off, x).1 == off + 0) = true := by simp
      rw [List.find?_cons, hp]
      simp
    | succ j =>
      have hp : ((off, x).1 == off + (j + 1)) = false := by
        simp only [beq_eq_false_iff_ne, ne_eq]
        omega
      rw [List.find?_cons, hp]
      simp only []
      have hih := ih (off + 1) j
      unfold lookupNode at hih
      rw [show off + (j + 1) = off + 1 + j by omega, List.getElem?_cons_succ]
      exact hih

theorem lookupNode_zip_range {N : Type} (ns : List N) (i : Nat) :
    lookupNode ((List.range ns.length).zip ns) i = ns[i]? := by
  have h := lookupNode_zip_aux ns 0 i
  rwa [Nat.zero_add, ← List.range_eq_range'] at h

theorem lookupNode_cliquesKvs {N : Type} (ns : List N) (h : ns.length ≤ EMPTY_KEY)
    (i : Nat) : lookupNode (cliquesKvs ns) i = ns[i]? := by
  rw [cliquesKvs_eq ns h, lookupNode_zip_range]

/-- Membership in the rebuilt edge set, in terms of positions and the
conflict predicate. -/
theorem mem_edgesFn_iff {N : Type} (conflict : N → N → Bool) (ns : List N)
    (h : ns.length ≤ EMPTY_KEY) (i j : Nat) :
    j ∈ edgesFn conflict (cliquesKvs ns) i ↔
      ∃ (hi : i < ns.length) (hj : j < ns.length), j ≠ i ∧
        conflict (ns.get ⟨i, hi⟩) (ns.get ⟨j, hj⟩) = true := by
  unfold edgesFn
  rw [lookupNode_cliquesKvs ns h]
  cases hni : ns[i]? with
  | none =>
    simp only []
    have hge : ns.length ≤ i := by
      by_contra hlt
      push_neg at hlt
      rw [List.getElem?_eq_getElem hlt] at hni
      exact Option.noConfusion hni
    constructor
    · intro hj
      exact absurd hj (Finset.not_mem_empty j)
    · rintro ⟨hi, -, -, -⟩
      omega
  | some n =>
    simp only []
    have hi : i < ns.length := by
      by_contra hge
      push_neg at hge
      rw [List.getElem?_eq_none hge] at hni
      exact Option.noConfusion hni
    have hn : ns[i] = n := by
      rw [List.getElem?_eq_getElem hi] at hni
      exact Option.some.inj hni
    unfold edgesOf
    rw [List.mem_toFinset]
    constructor
    · intro hmem
      obtain ⟨p, hp, hpj⟩ := List.mem_map.mp hmem
      have hpf := List.mem_filter.mp hp
      have hkv := hpf.1
      rw [cliquesKvs_eq ns h, ← List.enum_eq_zip_range] at hkv
      have hpe := List.mem_enum_iff_getElem?.mp hkv
      have hj : p.1 < ns.length := by
        by_contra hge
        push_neg at hge
        rw [List.getElem?_eq_none hge] at hpe
        exact Option.noConfusion hpe
      have hp2 : ns[p.1] = p.2 := by
        rw [List.getElem?_eq_getElem hj] at hpe
        exact Option.some.inj hpe
      have hfil := hpf.2
      rw [Bool.and_eq_true] at hfil
      obtain ⟨hne, hconf⟩ := hfil
      refine ⟨hi, hpj ▸ hj, ?_, ?_⟩
      · have := of_decide_eq_true hne
        omega
      · simp only [List.get_eq_getElem]
        rw [hn]
        have : ns[j] = p.2 := by
          subst hpj
          exact hp2
        rw [this]
        exact hconf
    · rintro ⟨hi2, hj, hne, hconf⟩
      apply List.mem_map.mpr
      refine ⟨(j, ns.get ⟨j, hj⟩), ?_, rfl⟩
      apply List.mem_filter.mpr
      constructor
      · rw [cliquesKvs_eq ns h, ← List.enum_eq_zip_range]
        apply List.mem_enum_iff_getElem?.mpr
        rw [List.getElem?_eq_getElem hj]
        rfl
      · rw [Bool.and_eq_true]
        refine ⟨decide_eq_true hne, ?_⟩
        have hnn : n = ns.get ⟨i, hi2⟩ := by
          simp only [List.get_eq_getElem]
          rw [hn]
        rw [hnn]
        exact hconf

/-- **C10.**  `conflict_cmp` is symmetric (a read/write overlap between two
systems is an overlap in either order), and consequently the edge relation
`rebuild` constructs on the systems store is mutual: `j` is an edge of `i`
iff `i` is an edge of `j`. -/
theorem conflict_cmp_symm_and_edges_mutual :
    (∀ a b : WorldSystem, conflict_cmp a b = conflict_cmp b a) ∧
    (∀ ns : List WorldSystem, ns.length ≤ EMPTY_KEY → ∀ i j : Nat,
      (j ∈ edgesFn conflict_cmp (cliquesKvs ns) i ↔
        i ∈ edgesFn conflict_cmp (cliquesKvs ns) j)) := by
  have hsym : ∀ a b : WorldSystem, conflict_cmp a b = conflict_cmp b a := by
    intro a b
    unfold conflict_cmp
    apply Bool.coe_iff_coe.mp
    simp only [Bool.or_eq_true, List.any_eq_true, beq_iff_eq]
    constructor
    · rintro (⟨r, hr, w, hw, he⟩ | ⟨w, hw, ⟨r, hr, he⟩ | ⟨ow, how, he⟩⟩)
      · exact Or.inr ⟨w, hw, Or.inl ⟨r, hr, he.symm⟩⟩
      · exact Or.inl ⟨r, hr, w, hw, he.symm⟩
      · exact Or.inr ⟨ow, how, Or.inr ⟨w, hw, he.symm⟩⟩
    · rintro (⟨r, hr, w, hw, he⟩ | ⟨w, hw, ⟨r, hr, he⟩ | ⟨ow, how, he⟩⟩)
      · exact Or.inr ⟨w, hw, Or.inl ⟨r, hr, he.symm⟩⟩
      · exact Or.inl ⟨r, hr, w, hw, he.symm⟩
      · exact Or.inr ⟨ow, how, Or.inr ⟨w, hw, he.symm⟩⟩
  refine ⟨hsym, ?_⟩
  intro ns hle i j
  rw [mem_edgesFn_iff conflict_cmp ns hle i j,
    mem_edgesFn_iff conflict_cmp ns hle j i]
  constructor
  · rintro ⟨hi, hj, hne, hc⟩
    exact ⟨hj, hi, fun he => hne he.symm, by rw [hsym]; exact hc⟩
  · rintro ⟨hj, hi, hne, hc⟩
    exact ⟨hi, hj, fun he => hne he.symm, by rw [hsym]; exact hc⟩

theorem conflict_cmp_symm_and_edges_mutual_witness :
    2 ∈ edgesFn conflict_cmp (cliquesKvs exSystems) 0 ↔
      0 ∈ edgesFn conflict_cmp (cliquesKvs exSystems) 2 :=
  conflict_cmp_symm_and_edges_mutual.2 exSystems (by decide) 0 2

/-- **C8 (counterexample).**  On the claim's own scenario — filters added in
order `[access X, closer-than 10 p, not Y]` — the sort does yield
`[closer-than, not, access]` as claimed, but `make()`'s pruning also drops
the first access/write filter itself (`truncate(i)` keeps only the first
`i` elements): the final filter set is `[closer-than, not]`, not the
claimed `[closer-than, not, access]`. -/
theorem make_drops_first_access_filter :
    sortFilters [QueryFilter.componentAccess 1,
        QueryFilter.spatialCloserThan 10 (0, 0, 0), QueryFilter.componentNot 2] =
      [QueryFilter.spatialCloserThan 10 (0, 0, 0), QueryFilter.componentNot 2,
        QueryFilter.componentAccess 1] ∧
    claimedMake [QueryFilter.componentAccess 1,
        QueryFilter.spatialCloserThan 10 (0, 0, 0), QueryFilter.componentNot 2] =
      [QueryFilter.spatialCloserThan 10 (0, 0, 0), QueryFilter.componentNot 2,
        QueryFilter.componentAccess 1] ∧
    sortAndPruneFilters [QueryFilter.componentAccess 1,
        QueryFilter.spatialCloserThan 10 (0, 0, 0), QueryFilter.componentNot 2] =
      [QueryFilter.spatialCloserThan 10 (0, 0, 0), QueryFilter.componentNot 2] ∧
    sortAndPruneFilters [QueryFilter.componentAccess 1,
        QueryFilter.spatialCloserThan 10 (0, 0, 0), QueryFilter.componentNot 2] ≠
      claimedMake [QueryFilter.componentAccess 1,
        QueryFilter.spatialCloserThan 10 (0, 0, 0), QueryFilter.componentNot 2] := by
  decide

/-- **C8 (amended).**  `sort_filters` reorders the filter set into
nondecreasing precedence (changed/spatial 10, exclusion 20, access/write
1000) without losing or duplicating filters, and `make()`'s pruning pass
keeps exactly the sorted prefix strictly before the first access/write
filter — that filter and everything after it are dropped. -/
theorem sort_and_prune_filters_amended (fs : List QueryFilter) :
    (sortFilters fs).Sorted (fun a b => a.precedence ≤ b.precedence) ∧
    (sortFilters fs).Perm fs ∧
    sortAndPruneFilters fs =
      (sortFilters fs).takeWhile (fun f => ! (isAccessOrWrite f)) := by
  refine ⟨List.sorted_insertionSort _ fs, List.perm_insertionSort _ fs, ?_⟩
  unfold sortAndPruneFilters
  generalize sortFilters fs = l
  induction l with
  | nil => rfl
  | cons f l ih =>
    cases h : isAccessOrWrite f <;> simp [pruneFilters, List.takeWhile_cons, h, ih]

end Sim
